import Mathlib

/-!
Shallow embedding of `chord_detector.h` (ulalume/chord_detector).
MIDI notes are modelled as `Int` (C++ `int`); the C++ `%` operator is
`Int.tmod` (truncated remainder, matching C++ semantics on negatives);
out-of-range indexing into the note-name tables (undefined behaviour in the
C++) is totalized to the empty string.
-/

set_option maxRecDepth 100000

/-- Chord analysis result structure (struct ChordResult). -/
structure ChordResult where
  full_name : String
  chord_name : String
  bass_note : String
  is_slash_chord : Bool
  root_pitch_class : Int
  bass_pitch_class : Int
deriving DecidableEq

/-- Initial/unresolved result value ({"", "", "", false, -1, -1}). -/
def emptyResult : ChordResult := ⟨"", "", "", false, -1, -1⟩

namespace ChordDetector

/-- Chord pattern definition (struct ChordPattern). -/
structure ChordPattern where
  mask : Nat
  name : String
  priority : Int
deriving DecidableEq

/-- Enhanced chord patterns table (CHORD_PATTERNS), in declaration order. -/
def CHORD_PATTERNS : List ChordPattern := [
  ⟨(1 <<< 0) ||| (1 <<< 2) ||| (1 <<< 4) ||| (1 <<< 5) ||| (1 <<< 7) ||| (1 <<< 10), "11", 100⟩,
  ⟨(1 <<< 0) ||| (1 <<< 2) ||| (1 <<< 4) ||| (1 <<< 5) ||| (1 <<< 7) ||| (1 <<< 11), "maj11", 100⟩,
  ⟨(1 <<< 0) ||| (1 <<< 2) ||| (1 <<< 3) ||| (1 <<< 5) ||| (1 <<< 7) ||| (1 <<< 10), "m11", 100⟩,
  ⟨(1 <<< 0) ||| (1 <<< 2) ||| (1 <<< 4) ||| (1 <<< 5) ||| (1 <<< 10), "11(omit5)", 95⟩,
  ⟨(1 <<< 0) ||| (1 <<< 2) ||| (1 <<< 4) ||| (1 <<< 5) ||| (1 <<< 11), "maj11(omit5)", 95⟩,
  ⟨(1 <<< 0) ||| (1 <<< 2) ||| (1 <<< 3) ||| (1 <<< 5) ||| (1 <<< 10), "m11(omit5)", 95⟩,
  ⟨(1 <<< 0) ||| (1 <<< 2) ||| (1 <<< 4) ||| (1 <<< 7) ||| (1 <<< 10), "9", 90⟩,
  ⟨(1 <<< 0) ||| (1 <<< 2) ||| (1 <<< 4) ||| (1 <<< 7) ||| (1 <<< 11), "maj9", 90⟩,
  ⟨(1 <<< 0) ||| (1 <<< 2) ||| (1 <<< 3) ||| (1 <<< 7) ||| (1 <<< 10), "m9", 90⟩,
  ⟨(1 <<< 0) ||| (1 <<< 2) ||| (1 <<< 3) ||| (1 <<< 7) ||| (1 <<< 11), "mM9", 90⟩,
  ⟨(1 <<< 0) ||| (1 <<< 2) ||| (1 <<< 4) ||| (1 <<< 10), "9(omit5)", 85⟩,
  ⟨(1 <<< 0) ||| (1 <<< 2) ||| (1 <<< 4) ||| (1 <<< 11), "maj9(omit5)", 85⟩,
  ⟨(1 <<< 0) ||| (1 <<< 2) ||| (1 <<< 3) ||| (1 <<< 10), "m9(omit5)", 85⟩,
  ⟨(1 <<< 0) ||| (1 <<< 4) ||| (1 <<< 7) ||| (1 <<< 10), "7", 80⟩,
  ⟨(1 <<< 0) ||| (1 <<< 4) ||| (1 <<< 7) ||| (1 <<< 11), "maj7", 80⟩,
  ⟨(1 <<< 0) ||| (1 <<< 3) ||| (1 <<< 7) ||| (1 <<< 10), "m7", 80⟩,
  ⟨(1 <<< 0) ||| (1 <<< 3) ||| (1 <<< 7) ||| (1 <<< 11), "mM7", 80⟩,
  ⟨(1 <<< 0) ||| (1 <<< 4) ||| (1 <<< 6) ||| (1 <<< 10), "7b5", 75⟩,
  ⟨(1 <<< 0) ||| (1 <<< 3) ||| (1 <<< 6) ||| (1 <<< 10), "m7b5", 75⟩,
  ⟨(1 <<< 0) ||| (1 <<< 3) ||| (1 <<< 6) ||| (1 <<< 9), "o7", 75⟩,
  ⟨(1 <<< 0) ||| (1 <<< 5) ||| (1 <<< 7) ||| (1 <<< 10), "7sus4", 70⟩,
  ⟨(1 <<< 0) ||| (1 <<< 2) ||| (1 <<< 7) ||| (1 <<< 10), "7sus2", 70⟩,
  ⟨(1 <<< 0) ||| (1 <<< 4) ||| (1 <<< 10), "7(omit5)", 72⟩,
  ⟨(1 <<< 0) ||| (1 <<< 4) ||| (1 <<< 11), "maj7(omit5)", 72⟩,
  ⟨(1 <<< 0) ||| (1 <<< 3) ||| (1 <<< 10), "m7(omit5)", 72⟩,
  ⟨(1 <<< 0) ||| (1 <<< 3) ||| (1 <<< 11), "mM7(omit5)", 72⟩,
  ⟨(1 <<< 0) ||| (1 <<< 4) ||| (1 <<< 7) ||| (1 <<< 9), "6", 78⟩,
  ⟨(1 <<< 0) ||| (1 <<< 3) ||| (1 <<< 7) ||| (1 <<< 9), "m6", 78⟩,
  ⟨(1 <<< 0) ||| (1 <<< 4) ||| (1 <<< 9), "6(omit5)", 45⟩,
  ⟨(1 <<< 0) ||| (1 <<< 3) ||| (1 <<< 9), "m6(omit5)", 45⟩,
  ⟨(1 <<< 0) ||| (1 <<< 4) ||| (1 <<< 5) ||| (1 <<< 7), "add11", 65⟩,
  ⟨(1 <<< 0) ||| (1 <<< 3) ||| (1 <<< 5) ||| (1 <<< 7), "madd11", 65⟩,
  ⟨(1 <<< 0) ||| (1 <<< 4) ||| (1 <<< 5), "add11(omit5)", 68⟩,
  ⟨(1 <<< 0) ||| (1 <<< 3) ||| (1 <<< 5), "madd11(omit5)", 68⟩,
  ⟨(1 <<< 0) ||| (1 <<< 2) ||| (1 <<< 4) ||| (1 <<< 7), "add9", 60⟩,
  ⟨(1 <<< 0) ||| (1 <<< 2) ||| (1 <<< 3) ||| (1 <<< 7), "madd9", 60⟩,
  ⟨(1 <<< 0) ||| (1 <<< 2) ||| (1 <<< 4), "add9(omit5)", 58⟩,
  ⟨(1 <<< 0) ||| (1 <<< 2) ||| (1 <<< 3), "madd9(omit5)", 58⟩,
  ⟨(1 <<< 0) ||| (1 <<< 5) ||| (1 <<< 7) ||| (1 <<< 10), "7sus4", 55⟩,
  ⟨(1 <<< 0) ||| (1 <<< 2) ||| (1 <<< 7) ||| (1 <<< 10), "7sus2", 55⟩,
  ⟨(1 <<< 0) ||| (1 <<< 4) ||| (1 <<< 7), "", 60⟩,
  ⟨(1 <<< 0) ||| (1 <<< 3) ||| (1 <<< 7), "m", 60⟩,
  ⟨(1 <<< 0) ||| (1 <<< 4) ||| (1 <<< 8), "+", 45⟩,
  ⟨(1 <<< 0) ||| (1 <<< 3) ||| (1 <<< 6), "o", 45⟩,
  ⟨(1 <<< 0) ||| (1 <<< 2) ||| (1 <<< 7), "sus2", 40⟩,
  ⟨(1 <<< 0) ||| (1 <<< 5) ||| (1 <<< 7), "sus4", 40⟩,
  ⟨(1 <<< 0) ||| (1 <<< 2) ||| (1 <<< 5), "sus2sus4", 30⟩,
  ⟨(1 <<< 0) ||| (1 <<< 2) ||| (1 <<< 5), "?", 35⟩,
  ⟨(1 <<< 0) ||| (1 <<< 7), "5", 30⟩,
  ⟨(1 <<< 0) ||| (1 <<< 5), "sus4(omit5)", 25⟩,
  ⟨(1 <<< 0) ||| (1 <<< 2), "sus2(omit5)", 25⟩,
  ⟨(1 <<< 0) ||| (1 <<< 4), "", 20⟩,
  ⟨(1 <<< 0) ||| (1 <<< 3), "m", 20⟩]

/-- Note name lookup table, sharp spelling (NOTE_NAMES_SHARP). -/
def NOTE_NAMES_SHARP : List String :=
  ["C", "C#", "D", "D#", "E", "F"] ++ ["F#", "G", "G#", "A", "A#", "B"]

/-- Note name lookup table, flat spelling (NOTE_NAMES_FLAT). -/
def NOTE_NAMES_FLAT : List String :=
  ["C", "Db", "D", "Eb", "E", "F", "Gb", "G", "Ab", "A", "Bb", "B"]

/-- Table indexing `note_names[i]`; a negative or too-large index is an
out-of-bounds read (undefined behaviour) in the C++, totalized here to "". -/
def noteName (names : List String) (i : Int) : String :=
  if 0 ≤ i then names.getD i.toNat "" else ""

/-- Validity test applied during interval extraction: `midi < 0 || midi > 127`
drops the note. -/
def validNote (n : Int) : Bool := decide (0 ≤ n) && decide (n ≤ 127)

/-- Pitch class `midi % 12` (C++ truncated remainder). -/
def pcOf (n : Int) : Int := n.tmod 12

/-- Interval `(pc - root_candidate + 12) % 12` of a note relative to a root. -/
def intervalFrom (r n : Int) : Int := (pcOf n - r + 12).tmod 12

/-- One iteration of the interval-collection loop shared by `analyze_chord`
and `analyze_for_slash_chord`: skip invalid notes, record `has_root`, and
append the interval if not already present and capacity permits. -/
def buildStep (r : Int) (st : List Int × Bool) (n : Int) : List Int × Bool :=
  if validNote n = true then
    (if st.1.contains (intervalFrom r n) = false ∧ st.1.length < 12 then
        st.1 ++ [intervalFrom r n]
      else st.1,
     st.2 || (intervalFrom r n == 0))
  else st

/-- Interval list and `has_root` flag collected for one root candidate. -/
def buildIntervals (notes : List Int) (r : Int) : List Int × Bool :=
  notes.foldl (buildStep r) ([], false)

/-- Insertion of one element into a sorted list (inner loop of
`insertion_sort`). -/
def insertSorted (x : Int) : List Int → List Int
  | [] => [x]
  | y :: ys => if x < y then x :: y :: ys else y :: insertSorted x ys

/-- In-place insertion sort on the interval array (insertion_sort). -/
def insertion_sort : List Int → List Int
  | [] => []
  | x :: xs => insertSorted x (insertion_sort xs)

/-- One iteration of the mask-building loop: set bit `i` for an interval `i`
in `[0, 12)` (`if (intervals[i] >= 0 && intervals[i] < 12)`). -/
def maskStep (m : Nat) (i : Int) : Nat :=
  if 0 ≤ i ∧ i < 12 then m ||| (1 <<< i.toNat) else m

/-- Create interval bitmask from intervals (create_interval_mask). -/
def create_interval_mask (ivs : List Int) : Nat :=
  ivs.foldl maskStep 0

/-- Mask built for a root candidate: the interval list is sorted and then
turned into a bitmask, exactly as both analysis loops do. -/
def candMask (notes : List Int) (r : Int) : Nat :=
  create_interval_mask (insertion_sort (buildIntervals notes r).1)

/-- Scan of the raw note list performed by the ambiguous-pattern special case
(`for i < note_count: if midi_notes[i] % 12 == target`); note the C++ loop
applies no range-validity filter here. -/
def anyPcB (notes : List Int) (p : Int) : Bool :=
  notes.any (fun n => pcOf n == p)

/-- Membership of a pitch class among the valid (in-range) input notes. -/
def hasValidPcB (notes : List Int) (p : Int) : Bool :=
  notes.any (fun n => validNote n && (pcOf n == p))

/-- Guard of both per-candidate loops (`if (!has_root || interval_count < 2)
continue;`): the candidate must sound and at least two distinct intervals
must have been collected. -/
def candOk (notes : List Int) (r : Int) : Prop :=
  (buildIntervals notes r).2 = true ∧ 2 ≤ (buildIntervals notes r).1.length

instance (notes : List Int) (r : Int) : Decidable (candOk notes r) :=
  inferInstanceAs (Decidable ((buildIntervals notes r).2 = true ∧
    2 ≤ (buildIntervals notes r).1.length))

/-- Candidate `r` is a grounded exact match for catalog entry `p`: it passes
the loop guard and its interval mask equals the entry's mask. -/
def groundedMatchAt (notes : List Int) (r : Int) (p : ChordPattern) : Prop :=
  p ∈ CHORD_PATTERNS ∧ candOk notes r ∧ candMask notes r = p.mask

/-- Result record written by the ambiguous-pattern special case of
`analyze_for_slash_chord`: a minor triad with omitted fifth rooted a major
second above the bass. -/
def mkSlashSpecialResult (names : List String) (bass : Int) : ChordResult :=
  ⟨noteName names ((bass + 2).tmod 12) ++ "m(omit5)" ++ "/" ++ noteName names bass,
   noteName names ((bass + 2).tmod 12) ++ "m(omit5)",
   noteName names bass, true, (bass + 2).tmod 12, bass⟩

/-- Result record written by the ordinary branch of
`analyze_for_slash_chord` for a matching pattern. -/
def mkSlashResult (names : List String) (bass r : Int) (p : ChordPattern) : ChordResult :=
  ⟨noteName names r ++ p.name ++ "/" ++ noteName names bass,
   noteName names r ++ p.name,
   noteName names bass, true, r, bass⟩

/-- Inner pattern-table loop body of `analyze_for_slash_chord`, including the
special handling of the ambiguous "?" pattern. State is
(best_priority, best_result). -/
def slashPatStep (notes : List Int) (names : List String) (bass r : Int) (mask : Nat)
    (st : Int × ChordResult) (p : ChordPattern) : Int × ChordResult :=
  if p.mask = mask ∧ p.priority > st.1 then
    if p.name = "?" then
      if mask = ((1 <<< 0) ||| (1 <<< 2) ||| (1 <<< 5)) then
        if anyPcB notes ((((bass + 2).tmod 12) + 3).tmod 12) = true then
          (p.priority + 10, mkSlashSpecialResult names bass)
        else st
      else st
    else
      (p.priority, mkSlashResult names bass r p)
  else st

/-- Per-root-candidate body of the `analyze_for_slash_chord` loop: skip the
bass pitch class, require the candidate to sound and at least two distinct
intervals, then scan the pattern table. -/
def slashRootStep (notes : List Int) (names : List String) (bass : Int)
    (st : Int × ChordResult) (r : Int) : Int × ChordResult :=
  if r = bass then st
  else
    if candOk notes r then
      CHORD_PATTERNS.foldl (slashPatStep notes names bass r (candMask notes r)) st
    else st

/-- Root candidates tried by both analysis loops (`for root_candidate = 0;
root_candidate < 12`). -/
def rootCandidates : List Int := [0, 1, 2, 3, 4, 5, 6, 7, 8, 9, 10, 11]

/-- Full candidate scan of `analyze_for_slash_chord`, keeping the internal
(best_priority, best_result) pair. -/
def slashScan (notes : List Int) (bass : Int) (names : List String) : Int × ChordResult :=
  rootCandidates.foldl (slashRootStep notes names bass) (-1, emptyResult)

/-- Enhanced slash chord analysis (analyze_for_slash_chord). -/
def analyze_for_slash_chord (notes : List Int) (bass : Int) (names : List String) : ChordResult :=
  (slashScan notes bass names).2

end ChordDetector

/-- Score given to a grounded candidate `r` matching catalog entry `p`:
`pattern.priority` plus the fixed +30 root-position bonus exactly when the
candidate equals the bass pitch class. -/
def gScore (bass r : Int) (p : ChordDetector.ChordPattern) : Int :=
  p.priority + (if r = bass then 30 else 0)

/-- Result record written by the grounded scan of `analyze_chord` for a
candidate root `r` matching catalog entry `p`. -/
def mkGroundedResult (names : List String) (use_slash : Bool) (bass r : Int)
    (p : ChordDetector.ChordPattern) : ChordResult :=
  ⟨if (r ≠ bass) ∧ use_slash = true then
      ChordDetector.noteName names r ++ p.name ++ "/" ++ ChordDetector.noteName names bass
    else ChordDetector.noteName names r ++ p.name,
   ChordDetector.noteName names r ++ p.name,
   ChordDetector.noteName names bass,
   decide (r ≠ bass) && use_slash, r, bass⟩

/-- Inner pattern-table loop body of the grounded scan in `analyze_chord`:
on a mask match, score is priority plus a +30 bonus when the candidate is the
bass pitch class; the best is replaced only on strictly greater score. -/
def groundedPatStep (names : List String) (use_slash : Bool) (bass r : Int) (mask : Nat)
    (st : Int × ChordResult) (p : ChordDetector.ChordPattern) : Int × ChordResult :=
  if p.mask ≠ mask then st
  else
    if gScore bass r p > st.1 then (gScore bass r p, mkGroundedResult names use_slash bass r p)
    else st

/-- Per-root-candidate body of the grounded scan in `analyze_chord`. -/
def groundedRootStep (notes : List Int) (names : List String) (use_slash : Bool) (bass : Int)
    (st : Int × ChordResult) (r : Int) : Int × ChordResult :=
  if ChordDetector.candOk notes r then
    ChordDetector.CHORD_PATTERNS.foldl
      (groundedPatStep names use_slash bass r (ChordDetector.candMask notes r)) st
  else st

/-- Grounded root scan of `analyze_chord` (the "try each note as root" loop),
returning the internal (best_priority, result) pair. -/
def analyzeGrounded (notes : List Int) (names : List String) (use_slash : Bool) (bass : Int) :
    Int × ChordResult :=
  ChordDetector.rootCandidates.foldl (groundedRootStep notes names use_slash bass)
    (-1, emptyResult)

/-- Bass scan of `analyze_chord`: the numerically lowest note of the whole
input, with no range-validity filter. -/
def minNote : List Int → Int
  | [] => 0
  | n :: rest => rest.foldl (fun b m => if m < b then m else b) n

/-- Main chord analysis function (analyze_chord). -/
def analyze_chord (notes : List Int) (use_flats : Bool) (use_slash : Bool) : ChordResult :=
  match notes with
  | [] => emptyResult
  | _ :: _ =>
    let names := if use_flats then ChordDetector.NOTE_NAMES_FLAT
                 else ChordDetector.NOTE_NAMES_SHARP
    let bass := (minNote notes).tmod 12
    let g := analyzeGrounded notes names use_slash bass
    if use_slash = true ∧ g.1 < 50 then
      if (ChordDetector.analyze_for_slash_chord notes bass names).full_name ≠ "" then
        ChordDetector.analyze_for_slash_chord notes bass names
      else g.2
    else g.2

/-- Simple chord name function (get_chord_name). -/
def get_chord_name (notes : List Int) (use_flats : Bool) (use_slash : Bool) : String :=
  (analyze_chord notes use_flats use_slash).full_name

/-- Inversion type detection helper (get_inversion_type). -/
def get_inversion_type (chord : ChordResult) : String :=
  if chord.is_slash_chord = false then "root"
  else
    if (chord.bass_pitch_class - chord.root_pitch_class + 12).tmod 12 = 0 then "root"
    else if (chord.bass_pitch_class - chord.root_pitch_class + 12).tmod 12 = 3 ∨
            (chord.bass_pitch_class - chord.root_pitch_class + 12).tmod 12 = 4 then "1st"
    else if (chord.bass_pitch_class - chord.root_pitch_class + 12).tmod 12 = 6 ∨
            (chord.bass_pitch_class - chord.root_pitch_class + 12).tmod 12 = 7 then "2nd"
    else if (chord.bass_pitch_class - chord.root_pitch_class + 12).tmod 12 = 10 ∨
            (chord.bass_pitch_class - chord.root_pitch_class + 12).tmod 12 = 11 then "3rd"
    else "other"

/-- Absence of the ambiguous placeholder character from a string. -/
def noQ (s : String) : Prop := ¬ ('?' ∈ s.data)

/-- Spec-side mapping for the refinement comparison: written directly from
the spec words "0→root, {3,4}→1st, {6,7}→2nd, {10,11}→3rd, else→other", to
be compared against `get_inversion_type`. -/
def invLabel (i : Int) : String :=
  if i = 0 then "root"
  else if i = 3 ∨ i = 4 then "1st"
  else if i = 6 ∨ i = 7 then "2nd"
  else if i = 10 ∨ i = 11 then "3rd"
  else "other"

example : analyze_chord [60, 64, 67] false false = ⟨"C", "C", "C", false, 0, 0⟩ := by decide

example : analyze_chord [64, 67, 72] false true = ⟨"C/E", "C", "E", true, 0, 4⟩ := by decide

namespace ChordDetector

/-- Generic invariant-preservation principle for `List.foldl`. -/
theorem foldl_inv {α β : Type} (f : β → α → β) (P : β → Prop) :
    ∀ (l : List α) (b : β), P b → (∀ b a, a ∈ l → P b → P (f b a)) → P (l.foldl f b) := by
  intro l
  induction l with
  | nil => intro b h0 _; exact h0
  | cons a t ih =>
      intro b h0 hs
      exact ih (f b a) (hs b a (List.mem_cons_self a t) h0)
        (fun b' a' ha' hb' => hs b' a' (List.mem_cons_of_mem a ha') hb')

/-- Two folds agree when the step functions agree on the list's members. -/
theorem foldl_congr_mem {α β : Type} (f g : β → α → β) :
    ∀ (l : List α) (b : β), (∀ b a, a ∈ l → f b a = g b a) → l.foldl f b = l.foldl g b := by
  intro l
  induction l with
  | nil => intro b _; rfl
  | cons a t ih =>
      intro b h
      simp only [List.foldl_cons]
      rw [h b a (List.mem_cons_self a t)]
      exact ih (g b a) (fun b' a' ha' => h b' a' (List.mem_cons_of_mem a ha'))

/-- Truncated remainder by 12 agrees with Euclidean remainder on nonnegative
arguments. -/
theorem tmod12_nonneg_eq (x : Int) (h : 0 ≤ x) : x.tmod 12 = x % 12 :=
  Int.tmod_eq_emod h (by norm_num)

/-- Unfolding of the range-validity test. -/
theorem validNote_iff (n : Int) : validNote n = true ↔ 0 ≤ n ∧ n ≤ 127 := by
  simp [validNote]

/-- Pitch class of a valid note lies in [0, 12). -/
theorem pcOf_range (n : Int) (h : validNote n = true) : 0 ≤ pcOf n ∧ pcOf n < 12 := by
  rcases (validNote_iff n).mp h with ⟨h1, _⟩
  rw [pcOf, tmod12_nonneg_eq n h1]
  omega

/-- Interval of a valid note relative to a root in [0, 12) lies in [0, 12). -/
theorem intervalFrom_range (r n : Int) (hr : 0 ≤ r) (hr2 : r < 12) (h : validNote n = true) :
    0 ≤ intervalFrom r n ∧ intervalFrom r n < 12 := by
  have hp := pcOf_range n h
  rw [intervalFrom, tmod12_nonneg_eq _ (by omega)]
  omega

/-- Characterization of the interval value of a valid note. -/
theorem intervalFrom_eq_iff (r i n : Int) (hr : 0 ≤ r) (hr2 : r < 12) (hi : 0 ≤ i)
    (hi2 : i < 12) (h : validNote n = true) :
    intervalFrom r n = i ↔ pcOf n = (r + i).tmod 12 := by
  have hp := pcOf_range n h
  rw [intervalFrom, tmod12_nonneg_eq _ (by omega), tmod12_nonneg_eq (r + i) (by omega)]
  omega

/-- A valid note contributes interval 0 exactly when its pitch class is the
root candidate. -/
theorem intervalFrom_eq_zero_iff (r n : Int) (hr : 0 ≤ r) (hr2 : r < 12)
    (h : validNote n = true) : intervalFrom r n = 0 ↔ pcOf n = r := by
  have := intervalFrom_eq_iff r 0 n hr hr2 (by omega) (by omega) h
  rw [this, add_zero, tmod12_nonneg_eq r (by omega)]
  omega

/-- A Nodup list of 12 values in [0, 12) contains every value of [0, 12). -/
theorem mem_of_nodup_bounds_len (l : List Int) (hnd : l.Nodup)
    (hb : ∀ i ∈ l, 0 ≤ i ∧ i < 12) (hlen : 12 ≤ l.length) (v : Int)
    (hv0 : 0 ≤ v) (hv : v < 12) : v ∈ l := by
  have hsub : l.toFinset ⊆ Finset.Icc (0 : Int) 11 := by
    intro x hx
    rcases hb x (List.mem_toFinset.mp hx) with ⟨h1, h2⟩
    exact Finset.mem_Icc.mpr ⟨h1, by omega⟩
  have hcard : (Finset.Icc (0 : Int) 11).card ≤ l.toFinset.card := by
    rw [List.toFinset_card_of_nodup hnd, Int.card_Icc]
    norm_num
    omega
  have heq := Finset.eq_of_subset_of_card_le hsub hcard
  have hv' : v ∈ l.toFinset := by
    rw [heq]; exact Finset.mem_Icc.mpr ⟨hv0, by omega⟩
  exact List.mem_toFinset.mp hv'

end ChordDetector

namespace ChordDetector

/-- Pointwise-equal predicates give equal `List.any` results. -/
theorem any_congr {α : Type} (f g : α → Bool) :
    ∀ (l : List α), (∀ a ∈ l, f a = g a) → l.any f = l.any g := by
  intro l
  induction l with
  | nil => intro _; rfl
  | cons a t ih =>
      intro h
      simp only [List.any_cons]
      rw [h a (List.mem_cons_self a t), ih (fun b hb => h b (List.mem_cons_of_mem a hb))]

/-- Unfolding of `buildStep` on a valid note whose interval is appended. -/
theorem buildStep_valid_append (r : Int) (st : List Int × Bool) (n : Int)
    (hv : validNote n = true)
    (hc : st.1.contains (intervalFrom r n) = false ∧ st.1.length < 12) :
    buildStep r st n = (st.1 ++ [intervalFrom r n], st.2 || (intervalFrom r n == 0)) := by
  have hnotmem : intervalFrom r n ∉ st.1 := by
    intro hmem
    have hcon : st.1.contains (intervalFrom r n) = true := by
      simp [List.contains, List.elem_iff, hmem]
    rw [hc.1] at hcon
    exact Bool.false_ne_true hcon
  simp [buildStep, hv, hc.1, hc.2, hnotmem]

/-- Unfolding of `buildStep` on a valid note whose interval is not appended. -/
theorem buildStep_valid_noappend (r : Int) (st : List Int × Bool) (n : Int)
    (hv : validNote n = true)
    (hc : ¬ (st.1.contains (intervalFrom r n) = false ∧ st.1.length < 12)) :
    buildStep r st n = (st.1, st.2 || (intervalFrom r n == 0)) := by
  simp only [buildStep, hv, if_true]
  rw [if_neg hc]

/-- Unfolding of `buildStep` on an out-of-range note. -/
theorem buildStep_invalid (r : Int) (st : List Int × Bool) (n : Int)
    (hv : validNote n = false) : buildStep r st n = st := by
  simp [buildStep, hv]

/-- Effect of a single interval-collection step on the state. -/
theorem buildStep_spec (r : Int) (hr : 0 ≤ r) (hr2 : r < 12) (st : List Int × Bool) (n : Int)
    (hnd : st.1.Nodup) (hb : ∀ i ∈ st.1, 0 ≤ i ∧ i < 12) :
    (buildStep r st n).1.Nodup ∧ (∀ i ∈ (buildStep r st n).1, 0 ≤ i ∧ i < 12) ∧
      (∀ i : Int, i ∈ (buildStep r st n).1 ↔
        i ∈ st.1 ∨ (validNote n = true ∧ intervalFrom r n = i)) ∧
      (buildStep r st n).2 = (st.2 || (validNote n && (intervalFrom r n == 0))) := by
  by_cases hv : validNote n = true
  · have hiv := intervalFrom_range r n hr hr2 hv
    by_cases hc : st.1.contains (intervalFrom r n) = false ∧ st.1.length < 12
    · rw [buildStep_valid_append r st n hv hc]
      have hnotmem : intervalFrom r n ∉ st.1 := by
        intro hmem
        have hcon : st.1.contains (intervalFrom r n) = true := by
          simp [List.contains, List.elem_iff, hmem]
        rw [hc.1] at hcon
        exact Bool.false_ne_true hcon
      refine ⟨?_, ?_, ?_, by simp [hv]⟩
      · simpa [List.nodup_append] using ⟨hnd, hnotmem⟩
      · intro i hi
        rcases List.mem_append.mp hi with h1 | h2
        · exact hb i h1
        · rcases List.mem_singleton.mp h2 with rfl
          exact hiv
      · intro i
        rw [List.mem_append, List.mem_singleton]
        constructor
        · rintro (h1 | rfl)
          · exact Or.inl h1
          · exact Or.inr ⟨hv, rfl⟩
        · rintro (h1 | ⟨-, rfl⟩)
          · exact Or.inl h1
          · exact Or.inr rfl
    · have hmem : intervalFrom r n ∈ st.1 := by
        by_cases hcc : st.1.contains (intervalFrom r n) = false
        · have hlen : 12 ≤ st.1.length := by
            rcases Nat.lt_or_ge st.1.length 12 with h | h
            · exact absurd ⟨hcc, h⟩ hc
            · exact h
          exact mem_of_nodup_bounds_len st.1 hnd hb hlen _ hiv.1 hiv.2
        · simp only [Bool.not_eq_false] at hcc
          simpa [List.contains, List.elem_iff] using hcc
      rw [buildStep_valid_noappend r st n hv hc]
      refine ⟨hnd, hb, ?_, by simp [hv]⟩
      intro i
      constructor
      · exact fun h => Or.inl h
      · rintro (h1 | ⟨-, rfl⟩)
        · exact h1
        · exact hmem
  · simp only [Bool.not_eq_true] at hv
    rw [buildStep_invalid r st n hv]
    refine ⟨hnd, hb, ?_, by simp [hv]⟩
    intro i
    constructor
    · exact fun h => Or.inl h
    · rintro (h1 | ⟨hcontr, -⟩)
      · exact h1
      · rw [hv] at hcontr
        exact absurd hcontr Bool.false_ne_true

/-- Invariants and characterization of the interval-collection fold, relative
to an arbitrary starting state. -/
theorem buildFold_spec (r : Int) (hr : 0 ≤ r) (hr2 : r < 12) :
    ∀ (notes : List Int) (st : List Int × Bool), st.1.Nodup → (∀ i ∈ st.1, 0 ≤ i ∧ i < 12) →
      (notes.foldl (buildStep r) st).1.Nodup ∧
      (∀ i ∈ (notes.foldl (buildStep r) st).1, 0 ≤ i ∧ i < 12) ∧
      (∀ i : Int, i ∈ (notes.foldl (buildStep r) st).1 ↔
        i ∈ st.1 ∨ ∃ n ∈ notes, validNote n = true ∧ intervalFrom r n = i) ∧
      (notes.foldl (buildStep r) st).2 =
        (st.2 || notes.any (fun n => validNote n && (intervalFrom r n == 0))) := by
  intro notes
  induction notes with
  | nil =>
      intro st h1 h2
      refine ⟨h1, h2, ?_, by simp⟩
      simp
  | cons n ns ih =>
      intro st h1 h2
      rcases buildStep_spec r hr hr2 st n h1 h2 with ⟨s1, s2, s3, s4⟩
      rcases ih (buildStep r st n) s1 s2 with ⟨t1, t2, t3, t4⟩
      simp only [List.foldl_cons]
      refine ⟨t1, t2, ?_, ?_⟩
      · intro i
        rw [t3 i, s3 i]
        constructor
        · rintro ((h | ⟨hv, hiv⟩) | ⟨m, hm, hv, hiv⟩)
          · exact Or.inl h
          · exact Or.inr ⟨n, List.mem_cons_self n ns, hv, hiv⟩
          · exact Or.inr ⟨m, List.mem_cons_of_mem n hm, hv, hiv⟩
        · rintro (h | ⟨m, hm, hv, hiv⟩)
          · exact Or.inl (Or.inl h)
          · rcases List.mem_cons.mp hm with rfl | hm'
            · exact Or.inl (Or.inr ⟨hv, hiv⟩)
            · exact Or.inr ⟨m, hm', hv, hiv⟩
      · rw [t4, s4]
        simp [Bool.or_assoc]

/-- The collected interval list is duplicate-free. -/
theorem buildIntervals_nodup (notes : List Int) (r : Int) (hr : 0 ≤ r) (hr2 : r < 12) :
    (buildIntervals notes r).1.Nodup :=
  (buildFold_spec r hr hr2 notes ([], false) List.nodup_nil (by simp)).1

/-- Every collected interval lies in [0, 12). -/
theorem buildIntervals_bounds (notes : List Int) (r : Int) (hr : 0 ≤ r) (hr2 : r < 12) :
    ∀ i ∈ (buildIntervals notes r).1, 0 ≤ i ∧ i < 12 :=
  (buildFold_spec r hr hr2 notes ([], false) List.nodup_nil (by simp)).2.1

/-- Membership in the collected interval list. -/
theorem mem_buildIntervals (notes : List Int) (r : Int) (hr : 0 ≤ r) (hr2 : r < 12) (i : Int) :
    i ∈ (buildIntervals notes r).1 ↔ ∃ n ∈ notes, validNote n = true ∧ intervalFrom r n = i := by
  have h := (buildFold_spec r hr hr2 notes ([], false) List.nodup_nil (by simp)).2.2.1 i
  simpa using h

/-- The has_root flag equals the pitch-class membership test of the candidate
among the valid notes. -/
theorem buildIntervals_snd (notes : List Int) (r : Int) (hr : 0 ≤ r) (hr2 : r < 12) :
    (buildIntervals notes r).2 = hasValidPcB notes r := by
  have h := (buildFold_spec r hr hr2 notes ([], false) List.nodup_nil (by simp)).2.2.2
  rw [buildIntervals]
  rw [h, Bool.false_or, hasValidPcB]
  apply any_congr
  intro n hn
  by_cases hv : validNote n = true
  · simp only [hv, Bool.true_and]
    by_cases hz : intervalFrom r n = 0
    · simp [hz, (intervalFrom_eq_zero_iff r n hr hr2 hv).mp hz]
    · have hpc : ¬ pcOf n = r := fun hh => hz ((intervalFrom_eq_zero_iff r n hr hr2 hv).mpr hh)
      simp [hz, hpc]
  · simp only [Bool.not_eq_true] at hv
    simp [hv]

end ChordDetector

namespace ChordDetector

/-- Membership after inserting into a sorted list. -/
theorem mem_insertSorted (x a : Int) :
    ∀ l : List Int, a ∈ insertSorted x l ↔ a = x ∨ a ∈ l := by
  intro l
  induction l with
  | nil => simp [insertSorted]
  | cons y ys ih =>
      by_cases h : x < y
      · simp [insertSorted, h]
      · simp only [insertSorted, h, if_false, List.mem_cons, ih]
        tauto

/-- Sorting preserves membership. -/
theorem mem_insertion_sort (a : Int) :
    ∀ l : List Int, a ∈ insertion_sort l ↔ a ∈ l := by
  intro l
  induction l with
  | nil => simp [insertion_sort]
  | cons x xs ih =>
      simp only [insertion_sort, mem_insertSorted, List.mem_cons, ih]

/-- Bit content of a single mask-building step. -/
theorem maskStep_testBit (m : Nat) (i : Int) (k : Nat) :
    (maskStep m i).testBit k = true ↔
      m.testBit k = true ∨ (0 ≤ i ∧ i < 12 ∧ i = (k : Int)) := by
  by_cases h : 0 ≤ i ∧ i < 12
  · rw [maskStep, if_pos h, Nat.testBit_or]
    rw [Nat.shiftLeft_eq, one_mul, Nat.testBit_two_pow]
    simp only [Bool.or_eq_true, decide_eq_true_eq]
    constructor
    · rintro (hm | he)
      · exact Or.inl hm
      · exact Or.inr ⟨h.1, h.2, by omega⟩
    · rintro (hm | ⟨h1, h2, he⟩)
      · exact Or.inl hm
      · exact Or.inr (by omega)
  · rw [maskStep, if_neg h]
    constructor
    · exact Or.inl
    · rintro (hm | ⟨h1, h2, _⟩)
      · exact hm
      · exact absurd ⟨h1, h2⟩ h

/-- Bit content of the mask-building fold. -/
theorem maskFold_testBit (k : Nat) :
    ∀ (l : List Int) (m : Nat), (l.foldl maskStep m).testBit k = true ↔
      m.testBit k = true ∨ ((k : Int) ∈ l ∧ k < 12) := by
  intro l
  induction l with
  | nil => simp
  | cons i t ih =>
      intro m
      simp only [List.foldl_cons]
      rw [ih (maskStep m i), maskStep_testBit]
      simp only [List.mem_cons]
      constructor
      · rintro ((hm | ⟨h1, h2, h3⟩) | ⟨hmem, hk⟩)
        · exact Or.inl hm
        · exact Or.inr ⟨Or.inl h3.symm, by omega⟩
        · exact Or.inr ⟨Or.inr hmem, hk⟩
      · rintro (hm | ⟨hmem | hmem, hk⟩)
        · exact Or.inl (Or.inl hm)
        · exact Or.inl (Or.inr ⟨by omega, by omega, by omega⟩)
        · exact Or.inr ⟨hmem, hk⟩

/-- Bit content of `create_interval_mask`. -/
theorem create_interval_mask_testBit (l : List Int) (k : Nat) :
    (create_interval_mask l).testBit k = true ↔ ((k : Int) ∈ l ∧ k < 12) := by
  rw [create_interval_mask]
  have h := maskFold_testBit k l 0
  simpa [Nat.zero_testBit] using h

/-- Bit content of the per-candidate mask, in terms of intervals of valid
notes. -/
theorem candMask_testBit (notes : List Int) (r : Int) (hr : 0 ≤ r) (hr2 : r < 12) (k : Nat) :
    (candMask notes r).testBit k = true ↔
      (k < 12 ∧ ∃ n ∈ notes, validNote n = true ∧ intervalFrom r n = (k : Int)) := by
  rw [candMask, create_interval_mask_testBit]
  rw [mem_insertion_sort, mem_buildIntervals notes r hr hr2]
  tauto

/-- Unfolding of the valid-pitch-class membership test. -/
theorem hasValidPcB_iff (notes : List Int) (p : Int) :
    hasValidPcB notes p = true ↔ ∃ n ∈ notes, validNote n = true ∧ pcOf n = p := by
  simp [hasValidPcB]

/-- Unfolding of the unfiltered pitch-class scan. -/
theorem anyPcB_iff (notes : List Int) (p : Int) :
    anyPcB notes p = true ↔ ∃ n ∈ notes, pcOf n = p := by
  simp [anyPcB]

/-- Bit content of the per-candidate mask, in terms of sounding pitch
classes. -/
theorem candMask_testBit_pc (notes : List Int) (r : Int) (hr : 0 ≤ r) (hr2 : r < 12) (k : Nat) :
    (candMask notes r).testBit k = true ↔
      (k < 12 ∧ hasValidPcB notes ((r + (k : Int)).tmod 12) = true) := by
  rw [candMask_testBit notes r hr hr2 k, hasValidPcB_iff]
  constructor
  · rintro ⟨hk, n, hn, hv, hiv⟩
    refine ⟨hk, n, hn, hv, ?_⟩
    exact (intervalFrom_eq_iff r (k : Int) n hr hr2 (by omega) (by exact_mod_cast hk) hv).mp hiv
  · rintro ⟨hk, n, hn, hv, hpc⟩
    refine ⟨hk, n, hn, hv, ?_⟩
    exact (intervalFrom_eq_iff r (k : Int) n hr hr2 (by omega) (by exact_mod_cast hk) hv).mpr hpc

/-- A Nodup list whose members all equal one value has length at most 1. -/
theorem length_le_one_of_all_eq (l : List Int) (hnd : l.Nodup) (v : Int)
    (h : ∀ i ∈ l, i = v) : l.length ≤ 1 := by
  match l with
  | [] => simp
  | [a] => simp
  | a :: b :: t =>
      have ha := h a (by simp)
      have hb := h b (by simp)
      rw [ha, hb] at hnd
      simp at hnd

/-- A list with two distinct members has length at least 2. -/
theorem two_le_length_of_two_mem (l : List Int) (a b : Int) (ha : a ∈ l) (hb : b ∈ l)
    (hne : a ≠ b) : 2 ≤ l.length := by
  match l with
  | [] => simp at ha
  | [x] =>
      rw [List.mem_singleton] at ha hb
      exact absurd (ha.trans hb.symm) hne
  | x :: y :: t => simp [List.length_cons]

end ChordDetector

open ChordDetector

/-- Characterization of the root-candidate list. -/
theorem mem_rootCandidates_iff (r : Int) : r ∈ rootCandidates ↔ 0 ≤ r ∧ r < 12 := by
  simp only [rootCandidates, List.mem_cons, List.mem_singleton, List.not_mem_nil, or_false]
  omega

/-- Every catalog priority is at least 20. -/
theorem patterns_priority_ge : ∀ p ∈ CHORD_PATTERNS, (20 : Int) ≤ p.priority := by decide

/-- Every catalog mask has bit 0 set. -/
theorem patterns_bit0 : ∀ p ∈ CHORD_PATTERNS, p.mask.testBit 0 = true := by decide

/-- The only catalog entry whose label contains the placeholder character is
the ambiguous entry with mask 37 and priority 35. -/
theorem patterns_qmark : ∀ p ∈ CHORD_PATTERNS,
    ('?' ∈ p.name.data) → p.mask = 37 ∧ p.priority = 35 := by decide

/-- The grounded candidate score is between the raw priority and raw
priority + 30. -/
theorem gScore_bounds (bass r : Int) (p : ChordPattern) :
    p.priority ≤ gScore bass r p ∧ gScore bass r p ≤ p.priority + 30 := by
  unfold gScore
  split <;> omega

/-- The grounded score of a non-bass candidate is the raw priority. -/
theorem gScore_of_ne (bass r : Int) (p : ChordPattern) (h : r ≠ bass) :
    gScore bass r p = p.priority := by
  unfold gScore
  rw [if_neg h, add_zero]

/-- The grounded score of the bass candidate is raw priority + 30. -/
theorem gScore_of_eq (bass r : Int) (p : ChordPattern) (h : r = bass) :
    gScore bass r p = p.priority + 30 := by
  unfold gScore
  rw [if_pos h]

/-- A single grounded pattern step never decreases the best score. -/
theorem groundedPatStep_fst_mono (names : List String) (us : Bool) (bass r : Int) (mask : Nat)
    (st : Int × ChordResult) (p : ChordPattern) :
    st.1 ≤ (groundedPatStep names us bass r mask st p).1 := by
  unfold groundedPatStep
  split
  · exact le_refl _
  · split
    · next h => omega
    · exact le_refl _

/-- The grounded pattern fold never decreases the best score. -/
theorem groundedPatFold_fst_mono (names : List String) (us : Bool) (bass r : Int) (mask : Nat) :
    ∀ (ps : List ChordPattern) (st : Int × ChordResult),
      st.1 ≤ (ps.foldl (groundedPatStep names us bass r mask) st).1 := by
  intro ps
  induction ps with
  | nil => intro st; exact le_refl _
  | cons p t ih =>
      intro st
      exact le_trans (groundedPatStep_fst_mono names us bass r mask st p)
        (ih (groundedPatStep names us bass r mask st p))

/-- After the grounded pattern fold, the best score dominates the score of
every matching member of the scanned pattern list. -/
theorem groundedPatFold_fst_ge (names : List String) (us : Bool) (bass r : Int) (mask : Nat)
    (p : ChordPattern) :
    ∀ (ps : List ChordPattern) (st : Int × ChordResult), p ∈ ps → p.mask = mask →
      gScore bass r p ≤ (ps.foldl (groundedPatStep names us bass r mask) st).1 := by
  intro ps
  induction ps with
  | nil => intro st h _; exact absurd h (List.not_mem_nil p)
  | cons q t ih =>
      intro st hmem hmask
      rcases List.mem_cons.mp hmem with rfl | hmem'
      · have hstep : gScore bass r p ≤ (groundedPatStep names us bass r mask st p).1 := by
          unfold groundedPatStep
          rw [if_neg (by simp [hmask])]
          split
          · exact le_refl _
          · next h => omega
        exact le_trans hstep (groundedPatFold_fst_mono names us bass r mask t _)
      · exact ih _ hmem' hmask

/-- A single grounded root-candidate step never decreases the best score. -/
theorem groundedRootStep_fst_mono (notes : List Int) (names : List String) (us : Bool)
    (bass : Int) (st : Int × ChordResult) (r : Int) :
    st.1 ≤ (groundedRootStep notes names us bass st r).1 := by
  unfold groundedRootStep
  split
  · exact groundedPatFold_fst_mono names us bass r (candMask notes r) CHORD_PATTERNS st
  · exact le_refl _

/-- The grounded root fold never decreases the best score. -/
theorem groundedRootFold_fst_mono (notes : List Int) (names : List String) (us : Bool)
    (bass : Int) :
    ∀ (l : List Int) (st : Int × ChordResult),
      st.1 ≤ (l.foldl (groundedRootStep notes names us bass) st).1 := by
  intro l
  induction l with
  | nil => intro st; exact le_refl _
  | cons r t ih =>
      intro st
      exact le_trans (groundedRootStep_fst_mono notes names us bass st r)
        (ih (groundedRootStep notes names us bass st r))

/-- Dominance: the final grounded best score is at least the score of every
grounded match among the scanned candidates. -/
theorem groundedRootFold_fst_ge (notes : List Int) (names : List String) (us : Bool)
    (bass : Int) (r : Int) (p : ChordPattern) (hp : p ∈ CHORD_PATTERNS)
    (hok : candOk notes r) (hmask : candMask notes r = p.mask) :
    ∀ (l : List Int) (st : Int × ChordResult), r ∈ l →
      gScore bass r p ≤ (l.foldl (groundedRootStep notes names us bass) st).1 := by
  intro l
  induction l with
  | nil => intro st h; exact absurd h (List.not_mem_nil r)
  | cons q t ih =>
      intro st hmem
      rcases List.mem_cons.mp hmem with rfl | hmem'
      · have hstep : gScore bass r p ≤ (groundedRootStep notes names us bass st r).1 := by
          unfold groundedRootStep
          rw [if_pos hok]
          exact groundedPatFold_fst_ge names us bass r (candMask notes r) p CHORD_PATTERNS st
            hp hmask.symm
        exact le_trans hstep (groundedRootFold_fst_mono notes names us bass t _)
      · exact ih _ hmem'

/-- Dominance at the level of `analyzeGrounded`. -/
theorem analyzeGrounded_fst_ge (notes : List Int) (names : List String) (us : Bool)
    (bass : Int) (r : Int) (p : ChordPattern) (hmem : r ∈ rootCandidates)
    (hmatch : groundedMatchAt notes r p) :
    gScore bass r p ≤ (analyzeGrounded notes names us bass).1 :=
  groundedRootFold_fst_ge notes names us bass r p hmatch.1 hmatch.2.1 hmatch.2.2 rootCandidates
    (-1, emptyResult) hmem

/-- Root field of the grounded result record. -/
theorem mkGroundedResult_root (names : List String) (us : Bool) (bass r : Int)
    (p : ChordPattern) : (mkGroundedResult names us bass r p).root_pitch_class = r := rfl

/-- Bass field of the grounded result record. -/
theorem mkGroundedResult_bass (names : List String) (us : Bool) (bass r : Int)
    (p : ChordPattern) : (mkGroundedResult names us bass r p).bass_pitch_class = bass := rfl

/-- Chord-name field of the grounded result record. -/
theorem mkGroundedResult_chord_name (names : List String) (us : Bool) (bass r : Int)
    (p : ChordPattern) :
    (mkGroundedResult names us bass r p).chord_name = noteName names r ++ p.name := rfl

/-- Full-name field of the grounded result record. -/
theorem mkGroundedResult_full_name (names : List String) (us : Bool) (bass r : Int)
    (p : ChordPattern) :
    (mkGroundedResult names us bass r p).full_name =
      (if (r ≠ bass) ∧ us = true then
          noteName names r ++ p.name ++ "/" ++ noteName names bass
        else noteName names r ++ p.name) := rfl

/-- Consistency: the grounded scan returns either the untouched initial state
or a genuine grounded match together with its score. -/
theorem analyzeGrounded_consistency (notes : List Int) (names : List String) (us : Bool)
    (bass : Int) :
    analyzeGrounded notes names us bass = (-1, emptyResult) ∨
      ∃ r p, r ∈ rootCandidates ∧ groundedMatchAt notes r p ∧
        (analyzeGrounded notes names us bass).1 = gScore bass r p ∧
        (analyzeGrounded notes names us bass).2 = mkGroundedResult names us bass r p := by
  unfold analyzeGrounded
  refine foldl_inv (groundedRootStep notes names us bass)
    (fun st => st = (-1, emptyResult) ∨
      ∃ r p, r ∈ rootCandidates ∧ groundedMatchAt notes r p ∧
        st.1 = gScore bass r p ∧ st.2 = mkGroundedResult names us bass r p)
    rootCandidates (-1, emptyResult) (Or.inl rfl) ?_
  intro st r hrmem hst
  unfold groundedRootStep
  split
  · next hok =>
      refine foldl_inv (groundedPatStep names us bass r (candMask notes r))
        (fun st => st = (-1, emptyResult) ∨
          ∃ r p, r ∈ rootCandidates ∧ groundedMatchAt notes r p ∧
            st.1 = gScore bass r p ∧ st.2 = mkGroundedResult names us bass r p)
        CHORD_PATTERNS st hst ?_
      intro st' p hpmem hst'
      unfold groundedPatStep
      split
      · exact hst'
      · next hmaskeq =>
          split
          · exact Or.inr ⟨r, p, hrmem,
              ⟨hpmem, hok, ((Decidable.not_not).mp hmaskeq).symm⟩, rfl, rfl⟩
          · exact hst'
  · exact hst

/-- The grounded result is unresolved exactly when the best score is still
the initial -1; a resolved result has score at least 20. -/
theorem analyzeGrounded_unresolved_iff (notes : List Int) (names : List String) (us : Bool)
    (bass : Int) :
    (analyzeGrounded notes names us bass).2.root_pitch_class = -1 ↔
      (analyzeGrounded notes names us bass).1 = -1 := by
  rcases analyzeGrounded_consistency notes names us bass with h | ⟨r, p, hrmem, hmatch, h1, h2⟩
  · rw [h]
    simp [emptyResult]
  · rw [h1, h2, mkGroundedResult_root]
    have hr := (mem_rootCandidates_iff r).mp hrmem
    have hp := patterns_priority_ge p hmatch.1
    have hg := gScore_bounds bass r p
    constructor
    · intro hh; omega
    · intro hh; omega

/-- A grounded result rooted at the bass pitch class has score -1 (no result)
or at least 50. -/
theorem analyzeGrounded_bass_rooted (notes : List Int) (names : List String) (us : Bool)
    (bass : Int)
    (h : (analyzeGrounded notes names us bass).2.root_pitch_class = bass) :
    (analyzeGrounded notes names us bass).1 = -1 ∨
      50 ≤ (analyzeGrounded notes names us bass).1 := by
  rcases analyzeGrounded_consistency notes names us bass with hc | ⟨r, p, hrmem, hmatch, h1, h2⟩
  · rw [hc]
    exact Or.inl rfl
  · right
    rw [h2, mkGroundedResult_root] at h
    rw [h1, gScore_of_eq bass r p h]
    have hp := patterns_priority_ge p hmatch.1
    omega

/-- The only catalog label containing the placeholder character is "?". -/
theorem patterns_qmark_name : ∀ p ∈ CHORD_PATTERNS, ('?' ∈ p.name.data) → p.name = "?" := by
  decide

/-- A list lookup with default yields the default or a member. -/
theorem getD_mem_or_default (l : List String) (k : Nat) (d : String) :
    l.getD k d = d ∨ l.getD k d ∈ l := by
  rcases Nat.lt_or_ge k l.length with h | h
  · right
    rw [List.getD_eq_getElem l d h]
    exact List.getElem_mem h
  · left
    exact List.getD_eq_default l d h

/-- Neither spelling table nor the out-of-bounds default contains the
placeholder character. -/
theorem noteName_noQ (names : List String) (hn : ∀ s ∈ names, ¬ ('?' ∈ s.data)) (i : Int) :
    ¬ ('?' ∈ (noteName names i).data) := by
  unfold noteName
  split
  · rcases getD_mem_or_default names i.toNat "" with h | h
    · rw [h]; simp
    · exact hn _ h
  · simp

/-- The sharp spelling table contains no placeholder character. -/
theorem sharp_noQ : ∀ s ∈ NOTE_NAMES_SHARP, ¬ ('?' ∈ s.data) := by decide

/-- The flat spelling table contains no placeholder character. -/
theorem flat_noQ : ∀ s ∈ NOTE_NAMES_FLAT, ¬ ('?' ∈ s.data) := by decide

/-- Consistency of the slash-resolver scan: the final state is the untouched
initial state, an ordinary write from a sounding non-bass candidate matching
a non-"?" catalog entry, or the ambiguous-shape special write. -/
theorem slashScan_consistency (notes : List Int) (names : List String) (bass : Int) :
    (slashScan notes bass names).2 = emptyResult ∨
      (∃ r p, r ∈ rootCandidates ∧ r ≠ bass ∧ groundedMatchAt notes r p ∧ p.name ≠ "?" ∧
        (slashScan notes bass names).2 = mkSlashResult names bass r p) ∨
      (∃ r, r ∈ rootCandidates ∧ r ≠ bass ∧ candOk notes r ∧ candMask notes r = 37 ∧
        (slashScan notes bass names).2 = mkSlashSpecialResult names bass) := by
  unfold slashScan
  refine foldl_inv (slashRootStep notes names bass)
    (fun st => st.2 = emptyResult ∨
      (∃ r p, r ∈ rootCandidates ∧ r ≠ bass ∧ groundedMatchAt notes r p ∧ p.name ≠ "?" ∧
        st.2 = mkSlashResult names bass r p) ∨
      (∃ r, r ∈ rootCandidates ∧ r ≠ bass ∧ candOk notes r ∧ candMask notes r = 37 ∧
        st.2 = mkSlashSpecialResult names bass))
    rootCandidates (-1, emptyResult) (Or.inl rfl) ?_
  intro st r hrmem hst
  unfold slashRootStep
  split
  · exact hst
  · next hrb =>
      split
      · next hok =>
          refine foldl_inv (slashPatStep notes names bass r (candMask notes r))
            (fun st => st.2 = emptyResult ∨
              (∃ r p, r ∈ rootCandidates ∧ r ≠ bass ∧ groundedMatchAt notes r p ∧
                p.name ≠ "?" ∧ st.2 = mkSlashResult names bass r p) ∨
              (∃ r, r ∈ rootCandidates ∧ r ≠ bass ∧ candOk notes r ∧ candMask notes r = 37 ∧
                st.2 = mkSlashSpecialResult names bass))
            CHORD_PATTERNS st hst ?_
          intro st' p hpmem hst'
          unfold slashPatStep
          split
          · next hguard =>
              split
              · split
                · next hm37 =>
                    split
                    · exact Or.inr (Or.inr ⟨r, hrmem, hrb, hok, by rw [hm37]; rfl, rfl⟩)
                    · exact hst'
                · exact hst'
              · next hq =>
                  exact Or.inr (Or.inl ⟨r, p, hrmem, hrb,
                    ⟨hpmem, hok, hguard.1.symm⟩, hq, rfl⟩)
          · exact hst'
      · exact hst

/-- Bits of the ambiguous mask 37 below 12. -/
theorem testBit37 : ∀ k : Nat, k < 12 → (Nat.testBit 37 k = true ↔ (k = 0 ∨ k = 2 ∨ k = 5)) := by
  decide

/-- Bits of the m7(omit5) mask 1033 below 12. -/
theorem testBit1033 : ∀ k : Nat, k < 12 →
    (Nat.testBit 1033 k = true ↔ (k = 0 ∨ k = 3 ∨ k = 10)) := by
  decide

/-- Pitch-class content of a note set whose mask at candidate `r` is the
ambiguous mask 37: exactly the classes r, r+2 and r+5 (mod 12) sound. -/
theorem hasValidPc_of_mask37 (notes : List Int) (r : Int) (hr0 : 0 ≤ r) (hr12 : r < 12)
    (hmask : candMask notes r = 37) (p : Int) (hp0 : 0 ≤ p) (hp12 : p < 12) :
    hasValidPcB notes p = true ↔
      (p = r ∨ p = (r + 2).tmod 12 ∨ p = (r + 5).tmod 12) := by
  have hd0 : 0 ≤ (p - r + 12) % 12 := Int.emod_nonneg _ (by norm_num)
  have hd12 : (p - r + 12) % 12 < 12 := Int.emod_lt_of_pos _ (by norm_num)
  have hk12 : ((p - r + 12) % 12).toNat < 12 := by omega
  have hcast : ((((p - r + 12) % 12).toNat : Nat) : Int) = (p - r + 12) % 12 :=
    Int.toNat_of_nonneg hd0
  have hrk : (r + ((((p - r + 12) % 12).toNat : Nat) : Int)).tmod 12 = p := by
    rw [hcast, tmod12_nonneg_eq _ (by omega)]
    omega
  have h1 := candMask_testBit_pc notes r hr0 hr12 ((p - r + 12) % 12).toNat
  rw [hmask, hrk] at h1
  have h2 := testBit37 ((p - r + 12) % 12).toNat hk12
  have e2 : (r + 2).tmod 12 = (r + 2) % 12 := tmod12_nonneg_eq _ (by omega)
  have e5 : (r + 5).tmod 12 = (r + 5) % 12 := tmod12_nonneg_eq _ (by omega)
  rw [e2, e5]
  constructor
  · intro hvp
    have hk := h2.mp (h1.mpr ⟨hk12, hvp⟩)
    omega
  · intro hpcase
    have hdval : ((p - r + 12) % 12).toNat = 0 ∨ ((p - r + 12) % 12).toNat = 2 ∨
        ((p - r + 12) % 12).toNat = 5 := by omega
    exact (h1.mp (h2.mpr hdval)).2

/-- A candidate whose mask is the ambiguous 37 forces the candidate a major
second above it to pass the loop guard with the m7(omit5) mask 1033. -/
theorem mask37_blocked (notes : List Int) (r : Int) (hr0 : 0 ≤ r) (hr12 : r < 12)
    (hmask : candMask notes r = 37) :
    0 ≤ (r + 2).tmod 12 ∧ (r + 2).tmod 12 < 12 ∧ candOk notes ((r + 2).tmod 12) ∧
      candMask notes ((r + 2).tmod 12) = 1033 := by
  have e2 : (r + 2).tmod 12 = (r + 2) % 12 := tmod12_nonneg_eq _ (by omega)
  have e5 : (r + 5).tmod 12 = (r + 5) % 12 := tmod12_nonneg_eq _ (by omega)
  have hr20 : 0 ≤ (r + 2).tmod 12 := by
    rw [e2]; exact Int.emod_nonneg _ (by norm_num)
  have hr212 : (r + 2).tmod 12 < 12 := by
    rw [e2]; exact Int.emod_lt_of_pos _ (by norm_num)
  have hr50 : 0 ≤ (r + 5).tmod 12 := by
    rw [e5]; exact Int.emod_nonneg _ (by norm_num)
  have hr512 : (r + 5).tmod 12 < 12 := by
    rw [e5]; exact Int.emod_lt_of_pos _ (by norm_num)
  have hpc := hasValidPc_of_mask37 notes r hr0 hr12 hmask
  have hvr2 : hasValidPcB notes ((r + 2).tmod 12) = true :=
    (hpc _ hr20 hr212).mpr (Or.inr (Or.inl rfl))
  have hvr5 : hasValidPcB notes ((r + 5).tmod 12) = true :=
    (hpc _ hr50 hr512).mpr (Or.inr (Or.inr rfl))
  have hroot : (buildIntervals notes ((r + 2).tmod 12)).2 = true := by
    rw [buildIntervals_snd notes _ hr20 hr212]; exact hvr2
  have hmem := mem_buildIntervals notes ((r + 2).tmod 12) hr20 hr212
  have h0mem : (0 : Int) ∈ (buildIntervals notes ((r + 2).tmod 12)).1 := by
    obtain ⟨n, hn, hv, hpceq⟩ := (hasValidPcB_iff notes _).mp hvr2
    exact (hmem 0).mpr ⟨n, hn, hv,
      (intervalFrom_eq_zero_iff _ n hr20 hr212 hv).mpr hpceq⟩
  have hr5eq : (((r + 2).tmod 12 + 3).tmod 12) = (r + 5).tmod 12 := by
    rw [tmod12_nonneg_eq _ (by omega), e5, e2]
    omega
  have h3mem : (3 : Int) ∈ (buildIntervals notes ((r + 2).tmod 12)).1 := by
    obtain ⟨n, hn, hv, hpceq⟩ := (hasValidPcB_iff notes _).mp hvr5
    refine (hmem 3).mpr ⟨n, hn, hv, ?_⟩
    refine (intervalFrom_eq_iff _ 3 n hr20 hr212 (by norm_num) (by norm_num) hv).mpr ?_
    rw [hr5eq]; exact hpceq
  have hlen : 2 ≤ (buildIntervals notes ((r + 2).tmod 12)).1.length :=
    two_le_length_of_two_mem _ 0 3 h0mem h3mem (by norm_num)
  refine ⟨hr20, hr212, ⟨hroot, hlen⟩, ?_⟩
  apply Nat.eq_of_testBit_eq
  intro k
  rcases Nat.lt_or_ge k 12 with hk | hk
  · have hbit := candMask_testBit_pc notes ((r + 2).tmod 12) hr20 hr212 k
    have hq0 : 0 ≤ ((r + 2).tmod 12 + (k : Int)).tmod 12 := by
      rw [tmod12_nonneg_eq _ (by omega)]; exact Int.emod_nonneg _ (by norm_num)
    have hq12 : ((r + 2).tmod 12 + (k : Int)).tmod 12 < 12 := by
      rw [tmod12_nonneg_eq _ (by omega)]; exact Int.emod_lt_of_pos _ (by norm_num)
    have hqpc := hpc (((r + 2).tmod 12 + (k : Int)).tmod 12) hq0 hq12
    have hqe : ((r + 2).tmod 12 + (k : Int)).tmod 12 = ((r + 2).tmod 12 + (k : Int)) % 12 :=
      tmod12_nonneg_eq _ (by omega)
    rw [Bool.eq_iff_iff, hbit, hqpc, testBit1033 k hk, hqe, e2, e5]
    omega
  · have hfneg : ¬ ((candMask notes ((r + 2).tmod 12)).testBit k = true) := by
      intro h
      have := (candMask_testBit_pc notes _ hr20 hr212 k).mp h
      omega
    have hfalse : (candMask notes ((r + 2).tmod 12)).testBit k = false := by
      simpa using hfneg
    rw [hfalse]
    symm
    apply Nat.testBit_lt_two_pow
    calc (1033 : Nat) < 2 ^ 12 := by norm_num
      _ ≤ 2 ^ k := Nat.pow_le_pow_right (by norm_num) hk

/-- Whenever some candidate's grounded mask is the ambiguous mask 37, the
grounded best score reaches at least 72, through the m7(omit5) match rooted
a major second above that candidate. -/
theorem grounded_ge72_of_mask37 (notes : List Int) (names : List String) (us : Bool)
    (bass r : Int) (hr0 : 0 ≤ r) (hr12 : r < 12) (hmask : candMask notes r = 37) :
    72 ≤ (analyzeGrounded notes names us bass).1 := by
  obtain ⟨h0, h12, hok, hmask2⟩ := mask37_blocked notes r hr0 hr12 hmask
  have hpmem : (⟨1033, "m7(omit5)", 72⟩ : ChordPattern) ∈ CHORD_PATTERNS := by decide
  have hge := analyzeGrounded_fst_ge notes names us bass ((r + 2).tmod 12)
    ⟨1033, "m7(omit5)", 72⟩ ((mem_rootCandidates_iff _).mpr ⟨h0, h12⟩) ⟨hpmem, hok, hmask2⟩
  have hb := (gScore_bounds bass ((r + 2).tmod 12) ⟨1033, "m7(omit5)", 72⟩).1
  have hpr : (⟨1033, "m7(omit5)", 72⟩ : ChordPattern).priority = 72 := rfl
  omega

/-- Unfolding of `analyze_chord` on a non-empty note list. -/
theorem analyze_chord_cons (n : Int) (rest : List Int) (uf us : Bool) :
    analyze_chord (n :: rest) uf us =
      (if us = true ∧
          (analyzeGrounded (n :: rest) (if uf then NOTE_NAMES_FLAT else NOTE_NAMES_SHARP) us
            ((minNote (n :: rest)).tmod 12)).1 < 50 then
        (if (analyze_for_slash_chord (n :: rest) ((minNote (n :: rest)).tmod 12)
              (if uf then NOTE_NAMES_FLAT else NOTE_NAMES_SHARP)).full_name ≠ "" then
          analyze_for_slash_chord (n :: rest) ((minNote (n :: rest)).tmod 12)
            (if uf then NOTE_NAMES_FLAT else NOTE_NAMES_SHARP)
        else
          (analyzeGrounded (n :: rest) (if uf then NOTE_NAMES_FLAT else NOTE_NAMES_SHARP) us
            ((minNote (n :: rest)).tmod 12)).2)
      else
        (analyzeGrounded (n :: rest) (if uf then NOTE_NAMES_FLAT else NOTE_NAMES_SHARP) us
          ((minNote (n :: rest)).tmod 12)).2) := rfl

/-- Root field of the ordinary slash-resolver result record. -/
theorem mkSlashResult_root (names : List String) (bass r : Int) (p : ChordPattern) :
    (mkSlashResult names bass r p).root_pitch_class = r := rfl

/-- Root field of the ambiguous-case slash-resolver result record. -/
theorem mkSlashSpecialResult_root (names : List String) (bass : Int) :
    (mkSlashSpecialResult names bass).root_pitch_class = (bass + 2).tmod 12 := rfl

/-- When every valid note has the same pitch class, no candidate passes the
two-interval guard. -/
theorem singlePc_not_candOk (notes : List Int) (P : Int)
    (hall : ∀ n ∈ notes, validNote n = true → pcOf n = P) (r : Int)
    (hr0 : 0 ≤ r) (hr12 : r < 12) : ¬ candOk notes r := by
  rintro ⟨hroot, hlen⟩
  have hmem := mem_buildIntervals notes r hr0 hr12
  have hall2 : ∀ i ∈ (buildIntervals notes r).1, i = (P - r + 12).tmod 12 := by
    intro i hi
    obtain ⟨n, hn, hv, hiv⟩ := (hmem i).mp hi
    rw [← hiv]
    unfold intervalFrom
    rw [hall n hn hv]
  have hone := length_le_one_of_all_eq _ (buildIntervals_nodup notes r hr0 hr12) _ hall2
  omega

/-- The grounded scan finds nothing on single-pitch-class input. -/
theorem analyzeGrounded_singlePc (notes : List Int) (names : List String) (us : Bool)
    (bass : Int) (P : Int) (hall : ∀ n ∈ notes, validNote n = true → pcOf n = P) :
    analyzeGrounded notes names us bass = (-1, emptyResult) := by
  unfold analyzeGrounded
  refine foldl_inv _ (fun st => st = (-1, emptyResult)) rootCandidates (-1, emptyResult) rfl ?_
  intro st r hrmem hst
  rw [hst]
  have hr := (mem_rootCandidates_iff r).mp hrmem
  unfold groundedRootStep
  rw [if_neg (singlePc_not_candOk notes P hall r hr.1 hr.2)]

/-- The slash resolver finds nothing on single-pitch-class input. -/
theorem slashScan_singlePc (notes : List Int) (names : List String) (bass : Int) (P : Int)
    (hall : ∀ n ∈ notes, validNote n = true → pcOf n = P) :
    slashScan notes bass names = (-1, emptyResult) := by
  unfold slashScan
  refine foldl_inv _ (fun st => st = (-1, emptyResult)) rootCandidates (-1, emptyResult) rfl ?_
  intro st r hrmem hst
  rw [hst]
  have hr := (mem_rootCandidates_iff r).mp hrmem
  unfold slashRootStep
  split
  · rfl
  · rw [if_neg (singlePc_not_candOk notes P hall r hr.1 hr.2)]

/-- Strings of the grounded result never contain the placeholder: a "?"
match is always outscored by the m7(omit5) match a major second above it. -/
theorem analyzeGrounded_noQ (notes : List Int) (names : List String) (us : Bool) (bass : Int)
    (hnames : ∀ s ∈ names, ¬ ('?' ∈ s.data)) :
    ¬ ('?' ∈ ((analyzeGrounded notes names us bass).2.chord_name).data) ∧
      ¬ ('?' ∈ ((analyzeGrounded notes names us bass).2.full_name).data) := by
  rcases analyzeGrounded_consistency notes names us bass with h | ⟨r, p, hrmem, hmatch, h1, h2⟩
  · rw [h]
    simp [emptyResult]
  · have hq : ¬ ('?' ∈ p.name.data) := by
      intro hq
      have hqm := patterns_qmark p hmatch.1 hq
      have hr := (mem_rootCandidates_iff r).mp hrmem
      have h72 := grounded_ge72_of_mask37 notes names us bass r hr.1 hr.2
        (by rw [hmatch.2.2, hqm.1])
      rw [h1] at h72
      have hsb := (gScore_bounds bass r p).2
      omega
    rw [h2, mkGroundedResult_chord_name, mkGroundedResult_full_name]
    have hnr := noteName_noQ names hnames r
    have hnb := noteName_noQ names hnames bass
    constructor
    · rw [String.data_append]
      simp only [List.mem_append]
      rintro (h | h)
      · exact hnr h
      · exact hq h
    · split
      · rw [String.data_append, String.data_append, String.data_append]
        simp only [List.mem_append]
        rintro (((h | h) | h) | h)
        · exact hnr h
        · exact hq h
        · simp at h
        · exact hnb h
      · rw [String.data_append]
        simp only [List.mem_append]
        rintro (h | h)
        · exact hnr h
        · exact hq h

/-- Strings of the slash-resolver result never contain the placeholder. -/
theorem slashScan_noQ (notes : List Int) (names : List String) (bass : Int)
    (hnames : ∀ s ∈ names, ¬ ('?' ∈ s.data)) :
    ¬ ('?' ∈ ((slashScan notes bass names).2.chord_name).data) ∧
      ¬ ('?' ∈ ((slashScan notes bass names).2.full_name).data) := by
  have hnb := noteName_noQ names hnames bass
  rcases slashScan_consistency notes names bass with h |
    ⟨r, p, hrmem, hrb, hmatch, hq, h2⟩ | ⟨r, hrmem, hrb, hok, hm, h2⟩
  · rw [h]
    simp [emptyResult]
  · have hq' : ¬ ('?' ∈ p.name.data) := fun hh => hq (patterns_qmark_name p hmatch.1 hh)
    have hnr := noteName_noQ names hnames r
    rw [h2]
    unfold mkSlashResult
    constructor
    · rw [String.data_append]
      simp only [List.mem_append]
      rintro (h | h)
      · exact hnr h
      · exact hq' h
    · rw [String.data_append, String.data_append, String.data_append]
      simp only [List.mem_append]
      rintro (((h | h) | h) | h)
      · exact hnr h
      · exact hq' h
      · simp at h
      · exact hnb h
  · have hns := noteName_noQ names hnames ((bass + 2).tmod 12)
    rw [h2]
    unfold mkSlashSpecialResult
    constructor
    · rw [String.data_append]
      simp only [List.mem_append]
      rintro (h | h)
      · exact hns h
      · simp at h
    · rw [String.data_append, String.data_append, String.data_append]
      simp only [List.mem_append]
      rintro (((h | h) | h) | h)
      · exact hns h
      · simp at h
      · simp at h
      · exact hnb h

/-- The spelling table selected by the flat/sharp option is free of the
placeholder character. -/
theorem names_noQ (uf : Bool) :
    ∀ s ∈ (if uf = true then NOTE_NAMES_FLAT else NOTE_NAMES_SHARP), ¬ ('?' ∈ s.data) := by
  cases uf
  · simpa using sharp_noQ
  · simpa using flat_noQ

/-- A resolved `analyze_chord` result is always rooted at a sounding valid
pitch class: the grounded scan requires has_root, the slash resolver's
ordinary writes require has_root, and its ambiguous special write is
unreachable because mask 37 forces a grounded best score of at least 72,
which disables the resolver. -/
theorem analyze_chord_root_sounds (notes : List Int) (uf us : Bool)
    (h : 0 ≤ (analyze_chord notes uf us).root_pitch_class) :
    hasValidPcB notes (analyze_chord notes uf us).root_pitch_class = true := by
  match notes with
  | [] =>
      rw [show analyze_chord [] uf us = emptyResult from rfl] at h
      simp [emptyResult] at h
  | m :: rest =>
      have hgroundedcase :
          0 ≤ ((analyzeGrounded (m :: rest) (if uf then NOTE_NAMES_FLAT else NOTE_NAMES_SHARP)
              us ((minNote (m :: rest)).tmod 12)).2).root_pitch_class →
          hasValidPcB (m :: rest)
            ((analyzeGrounded (m :: rest) (if uf then NOTE_NAMES_FLAT else NOTE_NAMES_SHARP)
              us ((minNote (m :: rest)).tmod 12)).2).root_pitch_class = true := by
        intro hh
        rcases analyzeGrounded_consistency (m :: rest)
            (if uf then NOTE_NAMES_FLAT else NOTE_NAMES_SHARP) us
            ((minNote (m :: rest)).tmod 12) with hc | ⟨r, p, hrmem, hmatch, h1, h2⟩
        · rw [hc] at hh
          simp [emptyResult] at hh
        · rw [h2, mkGroundedResult_root]
          have hr := (mem_rootCandidates_iff r).mp hrmem
          have := hmatch.2.1.1
          rw [buildIntervals_snd (m :: rest) r hr.1 hr.2] at this
          exact this
      rw [analyze_chord_cons] at h ⊢
      by_cases hcond : us = true ∧
          (analyzeGrounded (m :: rest) (if uf then NOTE_NAMES_FLAT else NOTE_NAMES_SHARP) us
            ((minNote (m :: rest)).tmod 12)).1 < 50
      · rw [if_pos hcond] at h ⊢
        by_cases hne : (analyze_for_slash_chord (m :: rest) ((minNote (m :: rest)).tmod 12)
            (if uf then NOTE_NAMES_FLAT else NOTE_NAMES_SHARP)).full_name ≠ ""
        · rw [if_pos hne] at h ⊢
          unfold analyze_for_slash_chord at h hne ⊢
          rcases slashScan_consistency (m :: rest)
              (if uf then NOTE_NAMES_FLAT else NOTE_NAMES_SHARP)
              ((minNote (m :: rest)).tmod 12) with hc |
            ⟨r, p, hrmem, hrb, hmatch, hq, h2⟩ | ⟨r, hrmem, hrb, hok, hm, h2⟩
          · rw [hc] at hne
            simp [emptyResult] at hne
          · rw [h2, mkSlashResult_root]
            have hr := (mem_rootCandidates_iff r).mp hrmem
            have := hmatch.2.1.1
            rw [buildIntervals_snd (m :: rest) r hr.1 hr.2] at this
            exact this
          · exfalso
            have hr := (mem_rootCandidates_iff r).mp hrmem
            have h72 := grounded_ge72_of_mask37 (m :: rest)
              (if uf then NOTE_NAMES_FLAT else NOTE_NAMES_SHARP) us
              ((minNote (m :: rest)).tmod 12) r hr.1 hr.2 hm
            omega
        · rw [if_neg hne] at h ⊢
          exact hgroundedcase h
      · rw [if_neg hcond] at h ⊢
        exact hgroundedcase h

/-- One direction of interval-list membership transfer between note lists
with the same valid pitch-class content. -/
theorem buildIntervals_mem_mono (notes1 notes2 : List Int) (r : Int) (hr0 : 0 ≤ r)
    (hr12 : r < 12)
    (hpc : ∀ q : Int, hasValidPcB notes1 q = true → hasValidPcB notes2 q = true) (i : Int)
    (h : i ∈ (buildIntervals notes1 r).1) : i ∈ (buildIntervals notes2 r).1 := by
  rw [mem_buildIntervals _ _ hr0 hr12] at h ⊢
  obtain ⟨n, hn, hv, hiv⟩ := h
  have hb := intervalFrom_range r n hr0 hr12 hv
  have hb2 : 0 ≤ i ∧ i < 12 := hiv ▸ hb
  have hpceq := (intervalFrom_eq_iff r i n hr0 hr12 hb2.1 hb2.2 hv).mp hiv
  have hvp1 : hasValidPcB notes1 ((r + i).tmod 12) = true :=
    (hasValidPcB_iff _ _).mpr ⟨n, hn, hv, hpceq⟩
  obtain ⟨n2, hn2, hv2, hp2⟩ := (hasValidPcB_iff _ _).mp (hpc _ hvp1)
  exact ⟨n2, hn2, hv2, (intervalFrom_eq_iff r i n2 hr0 hr12 hb2.1 hb2.2 hv2).mpr hp2⟩

/-- Per-candidate loop data depends on the input only through emptiness-free
valid pitch-class content: has_root flag, interval count and mask agree. -/
theorem candData_ext (notes1 notes2 : List Int) (r : Int) (hr0 : 0 ≤ r) (hr12 : r < 12)
    (hpc : ∀ q : Int, hasValidPcB notes1 q = hasValidPcB notes2 q) :
    (buildIntervals notes1 r).2 = (buildIntervals notes2 r).2 ∧
      (buildIntervals notes1 r).1.length = (buildIntervals notes2 r).1.length ∧
      candMask notes1 r = candMask notes2 r := by
  have hmono1 : ∀ q : Int, hasValidPcB notes1 q = true → hasValidPcB notes2 q = true :=
    fun q h => (hpc q) ▸ h
  have hmono2 : ∀ q : Int, hasValidPcB notes2 q = true → hasValidPcB notes1 q = true :=
    fun q h => (hpc q).symm ▸ h
  have hmem : ∀ i : Int, i ∈ (buildIntervals notes1 r).1 ↔ i ∈ (buildIntervals notes2 r).1 :=
    fun i => ⟨buildIntervals_mem_mono notes1 notes2 r hr0 hr12 hmono1 i,
      buildIntervals_mem_mono notes2 notes1 r hr0 hr12 hmono2 i⟩
  refine ⟨?_, ?_, ?_⟩
  · rw [buildIntervals_snd _ _ hr0 hr12, buildIntervals_snd _ _ hr0 hr12, hpc r]
  · have h1 := buildIntervals_nodup notes1 r hr0 hr12
    have h2 := buildIntervals_nodup notes2 r hr0 hr12
    rw [← List.toFinset_card_of_nodup h1, ← List.toFinset_card_of_nodup h2]
    congr 1
    ext a
    simp only [List.mem_toFinset]
    exact hmem a
  · apply Nat.eq_of_testBit_eq
    intro k
    rcases Nat.lt_or_ge k 12 with hk | hk
    · rw [Bool.eq_iff_iff, candMask_testBit_pc _ _ hr0 hr12 k,
        candMask_testBit_pc _ _ hr0 hr12 k, hpc ((r + (k : Int)).tmod 12)]
    · have hf1 : (candMask notes1 r).testBit k = false := by
        have : ¬ ((candMask notes1 r).testBit k = true) := by
          intro h
          have := (candMask_testBit_pc notes1 r hr0 hr12 k).mp h
          omega
        simpa using this
      have hf2 : (candMask notes2 r).testBit k = false := by
        have : ¬ ((candMask notes2 r).testBit k = true) := by
          intro h
          have := (candMask_testBit_pc notes2 r hr0 hr12 k).mp h
          omega
        simpa using this
      rw [hf1, hf2]

/-- The grounded scan depends on the input notes only through their valid
pitch-class content. -/
theorem analyzeGrounded_ext (notes1 notes2 : List Int) (names : List String) (us : Bool)
    (bass : Int) (hpc : ∀ q : Int, hasValidPcB notes1 q = hasValidPcB notes2 q) :
    analyzeGrounded notes1 names us bass = analyzeGrounded notes2 names us bass := by
  unfold analyzeGrounded
  apply foldl_congr_mem
  intro st r hrmem
  have hr := (mem_rootCandidates_iff r).mp hrmem
  obtain ⟨hsnd, hlen, hmask⟩ := candData_ext notes1 notes2 r hr.1 hr.2 hpc
  unfold groundedRootStep
  have hok : candOk notes1 r ↔ candOk notes2 r := by
    unfold candOk
    rw [hsnd, hlen]
  by_cases h : candOk notes1 r
  · rw [if_pos h, if_pos (hok.mp h), hmask]
  · rw [if_neg h, if_neg (fun hh => h (hok.mpr hh))]

/-- The slash-resolver scan depends on the input notes only through their
valid pitch-class content and their unfiltered pitch-class content. -/
theorem slashScan_ext (notes1 notes2 : List Int) (names : List String) (bass : Int)
    (hpc : ∀ q : Int, hasValidPcB notes1 q = hasValidPcB notes2 q)
    (hany : ∀ q : Int, anyPcB notes1 q = anyPcB notes2 q) :
    slashScan notes1 bass names = slashScan notes2 bass names := by
  unfold slashScan
  apply foldl_congr_mem
  intro st r hrmem
  have hr := (mem_rootCandidates_iff r).mp hrmem
  obtain ⟨hsnd, hlen, hmask⟩ := candData_ext notes1 notes2 r hr.1 hr.2 hpc
  unfold slashRootStep
  by_cases hb : r = bass
  · rw [if_pos hb, if_pos hb]
  · rw [if_neg hb, if_neg hb]
    have hok : candOk notes1 r ↔ candOk notes2 r := by
      unfold candOk
      rw [hsnd, hlen]
    by_cases h : candOk notes1 r
    · rw [if_pos h, if_pos (hok.mp h), hmask]
      apply foldl_congr_mem
      intro st' p _
      unfold slashPatStep
      rw [hany ((((bass + 2).tmod 12) + 3).tmod 12)]
    · rw [if_neg h, if_neg (fun hh => h (hok.mpr hh))]

/-- Extensionality of `analyze_chord`: two non-empty inputs with the same
bass pitch class, the same valid pitch-class content and the same unfiltered
pitch-class content resolve identically. -/
theorem analyze_chord_ext (notes1 notes2 : List Int) (uf us : Bool)
    (h1 : notes1 ≠ []) (h2 : notes2 ≠ [])
    (hbass : (minNote notes1).tmod 12 = (minNote notes2).tmod 12)
    (hpc : ∀ q : Int, hasValidPcB notes1 q = hasValidPcB notes2 q)
    (hany : ∀ q : Int, anyPcB notes1 q = anyPcB notes2 q) :
    analyze_chord notes1 uf us = analyze_chord notes2 uf us := by
  obtain ⟨m1, r1, rfl⟩ := List.exists_cons_of_ne_nil h1
  obtain ⟨m2, r2, rfl⟩ := List.exists_cons_of_ne_nil h2
  rw [analyze_chord_cons, analyze_chord_cons, hbass,
    analyzeGrounded_ext (m1 :: r1) (m2 :: r2) _ us _ hpc]
  have hslash : analyze_for_slash_chord (m1 :: r1) ((minNote (m2 :: r2)).tmod 12)
      (if uf then NOTE_NAMES_FLAT else NOTE_NAMES_SHARP) =
      analyze_for_slash_chord (m2 :: r2) ((minNote (m2 :: r2)).tmod 12)
      (if uf then NOTE_NAMES_FLAT else NOTE_NAMES_SHARP) := by
    unfold analyze_for_slash_chord
    rw [slashScan_ext (m1 :: r1) (m2 :: r2) _ _ hpc hany]
  rw [hslash]

/-- C1 counterexample: adding the octave duplicate 57 (pitch class 9, already
present via note 81) to {72,76,79,81} changes the resolved result from C6 to
Am7, because the bass pitch class moves from 0 to 9; unconditional octave
invariance fails. -/
theorem c1_counterexample :
    validNote 57 = true ∧
    hasValidPcB [72, 76, 79, 81] (pcOf 57) = true ∧
    analyze_chord ([72, 76, 79, 81] ++ [57]) false false ≠
      analyze_chord [72, 76, 79, 81] false false := by
  refine ⟨by decide, by decide, by decide⟩

/-- C1 (amended): adding an octave-duplicated copy of an already-present
valid pitch class leaves the resolved ChordResult unchanged for every option
pair, provided the bass pitch class (pitch class of the numerically lowest
note) is unchanged. -/
theorem c1_theorem (notes : List Int) (x : Int) (uf us : Bool)
    (hne : notes ≠ []) (_hv : validNote x = true)
    (hdup : hasValidPcB notes (pcOf x) = true)
    (hbass : (minNote (notes ++ [x])).tmod 12 = (minNote notes).tmod 12) :
    analyze_chord (notes ++ [x]) uf us = analyze_chord notes uf us := by
  apply analyze_chord_ext (notes ++ [x]) notes uf us (by simp) hne hbass
  · intro q
    unfold hasValidPcB
    rw [List.any_append]
    simp only [List.any_cons, List.any_nil, Bool.or_false]
    by_cases hq : pcOf x = q
    · have hvq : hasValidPcB notes q = true := hq ▸ hdup
      unfold hasValidPcB at hvq
      rw [hvq]
      rfl
    · have hbe : (pcOf x == q) = false := by simp [hq]
      rw [hbe, Bool.and_false, Bool.or_false]
  · intro q
    unfold anyPcB
    rw [List.any_append]
    simp only [List.any_cons, List.any_nil, Bool.or_false]
    by_cases hq : pcOf x = q
    · have hvq : hasValidPcB notes q = true := hq ▸ hdup
      obtain ⟨n, hn, hv2, hp⟩ := (hasValidPcB_iff notes q).mp hvq
      have hany : anyPcB notes q = true := (anyPcB_iff notes q).mpr ⟨n, hn, hp⟩
      unfold anyPcB at hany
      rw [hany]
      rfl
    · have hbe : (pcOf x == q) = false := by simp [hq]
      rw [hbe, Bool.or_false]

/-- C1 witness: {60,64,67} with octave duplicate 48 appended (bass pitch
class unchanged) resolves identically to {60,64,67}. -/
theorem c1_witness :
    analyze_chord ([60, 64, 67] ++ [48]) false true = analyze_chord [60, 64, 67] false true :=
  c1_theorem [60, 64, 67] 48 false true (by decide) (by decide) (by decide) (by decide)

/-- C2 counterexample: the single note {60} yields the unresolved sentinel
(empty fullName, rootPitchClass -1), not a bare-note "C" result; the repo's
own test suite asserts the empty name. -/
theorem c2_counterexample :
    (analyze_chord [60] false false).full_name ≠ "C" ∧
    (analyze_chord [60] false false).root_pitch_class = -1 ∧
    (analyze_chord [60] false true).is_slash_chord = false := by
  refine ⟨by decide, by decide, by decide⟩

/-- C2 (amended): an input whose valid notes reduce to exactly one distinct
pitch class yields the unresolved sentinel ChordResult
{"", "", "", false, -1, -1}, for both option flags. -/
theorem c2_theorem (notes : List Int) (uf us : Bool) (P : Int)
    (hex : ∃ n ∈ notes, validNote n = true)
    (hall : ∀ n ∈ notes, validNote n = true → pcOf n = P) :
    analyze_chord notes uf us = emptyResult := by
  match notes with
  | [] =>
      obtain ⟨n, hn, -⟩ := hex
      exact absurd hn (List.not_mem_nil n)
  | m :: rest =>
      rw [analyze_chord_cons]
      rw [analyzeGrounded_singlePc (m :: rest) _ us _ P hall]
      have hs : analyze_for_slash_chord (m :: rest) ((minNote (m :: rest)).tmod 12)
          (if uf then NOTE_NAMES_FLAT else NOTE_NAMES_SHARP) = emptyResult := by
        unfold analyze_for_slash_chord
        rw [slashScan_singlePc (m :: rest) _ _ P hall]
      rw [hs]
      simp [emptyResult]

/-- C2 witness: {60,72} (two octaves of C) yields the unresolved sentinel. -/
theorem c2_witness : analyze_chord [60, 72] false true = emptyResult :=
  c2_theorem [60, 72] false true 0 ⟨60, by decide, by decide⟩ (by decide)

/-- C3: the bass scan has no range filter, so appending the out-of-range
note -5 changes bass_pitch_class from 0 to -5 (C++ -5 % 12 = -5) and hence
the returned ChordResult, contradicting the claim that out-of-range notes
have no effect and that the bass is the lowest valid note. -/
theorem c3_theorem :
    (analyze_chord [60, 64, 67] false false).bass_pitch_class = 0 ∧
    (analyze_chord [60, 64, 67, -5] false false).bass_pitch_class = -5 ∧
    analyze_chord [60, 64, 67, -5] false false ≠ analyze_chord [60, 64, 67] false false := by
  refine ⟨by decide, by decide, by decide⟩

/-- C4 counterexample: no input with useSlash=true ever yields a resolved
result rooted at a pitch class absent from the valid notes — the virtual
scan skips non-sounding candidates exactly like the grounded scan, and its
only non-sounding write (the ambiguous reinterpretation) is unreachable. -/
theorem c4_counterexample :
    ¬ ∃ (notes : List Int) (uf : Bool),
        0 ≤ (analyze_chord notes uf true).root_pitch_class ∧
        hasValidPcB notes (analyze_chord notes uf true).root_pitch_class = false := by
  rintro ⟨notes, uf, hge, hfalse⟩
  rw [analyze_chord_root_sounds notes uf true hge] at hfalse
  exact absurd hfalse (by decide)

/-- C4 (amended): both scans require the root candidate to sound (has_root);
every resolved result of analyze_chord is rooted at a pitch class present
among the valid input notes, for any option pair. -/
theorem c4_theorem (notes : List Int) (uf us : Bool)
    (h : 0 ≤ (analyze_chord notes uf us).root_pitch_class) :
    hasValidPcB notes (analyze_chord notes uf us).root_pitch_class = true :=
  analyze_chord_root_sounds notes uf us h

/-- C4 witness: {60,64,67} with slash enabled resolves to a sounding root. -/
theorem c4_witness :
    hasValidPcB [60, 64, 67]
      (analyze_chord [60, 64, 67] false true).root_pitch_class = true :=
  c4_theorem [60, 64, 67] false true (by decide)

/-- C5 counterexample: the mask built for root candidate 0 on {60,64,67}
passes the loop guard and has bit 0 SET, refuting the claim that masks
compared against the catalog have bit 0 clear. -/
theorem c5_counterexample :
    candOk [60, 64, 67] 0 ∧ (candMask [60, 64, 67] 0).testBit 0 = true := by
  refine ⟨⟨by decide, by decide⟩, by decide⟩

/-- C5 (amended): bit 0 of the built mask equals the has_root flag (it is
set exactly when the root candidate sounds), so every mask that reaches
catalog comparison has bit 0 set; moreover every catalog mask has bit 0
set. -/
theorem c5_theorem (notes : List Int) (r : Int) (hr : r ∈ rootCandidates) :
    ((candMask notes r).testBit 0 = (buildIntervals notes r).2) ∧
      (∀ p ∈ CHORD_PATTERNS, p.mask.testBit 0 = true) := by
  have hrr := (mem_rootCandidates_iff r).mp hr
  refine ⟨?_, patterns_bit0⟩
  rw [Bool.eq_iff_iff, candMask_testBit_pc notes r hrr.1 hrr.2 0,
    buildIntervals_snd notes r hrr.1 hrr.2]
  have hz : (r + ((0 : Nat) : Int)).tmod 12 = r := by
    push_cast
    rw [add_zero, tmod12_nonneg_eq r hrr.1]
    omega
  rw [hz]
  simp

/-- C5 witness: instantiation at {60,64,67}, root candidate 0. -/
theorem c5_witness :
    ((candMask [60, 64, 67] 0).testBit 0 = (buildIntervals [60, 64, 67] 0).2) ∧
      (∀ p ∈ CHORD_PATTERNS, p.mask.testBit 0 = true) :=
  c5_theorem [60, 64, 67] 0 (by decide)

/-- C6: the grounded score is priority plus a +30 bonus exactly for the bass
candidate; when the bass pitch class is itself a grounded match for entry e,
the final best score is at least e.priority + 30, and the selected root is
either the bass itself or a match of raw priority at least e.priority + 30 —
hence strictly above any competitor of equal or lower raw priority. -/
theorem c6_theorem (notes : List Int) (names : List String) (us : Bool) (bass : Int)
    (e : ChordPattern) (hb : bass ∈ rootCandidates) (hmatch : groundedMatchAt notes bass e) :
    (∀ r p, gScore bass r p = p.priority + (if r = bass then 30 else 0)) ∧
    e.priority + 30 ≤ (analyzeGrounded notes names us bass).1 ∧
    ((analyzeGrounded notes names us bass).2.root_pitch_class = bass ∨
      ∃ f, groundedMatchAt notes (analyzeGrounded notes names us bass).2.root_pitch_class f ∧
        e.priority + 30 ≤ f.priority) := by
  have hge := analyzeGrounded_fst_ge notes names us bass bass e hb hmatch
  rw [gScore_of_eq bass bass e rfl] at hge
  refine ⟨fun r p => rfl, hge, ?_⟩
  rcases analyzeGrounded_consistency notes names us bass with hc | ⟨r, p, hrmem, hm, h1, h2⟩
  · exfalso
    rw [hc] at hge
    have hfst : (((-1 : Int), emptyResult) : Int × ChordResult).1 = -1 := rfl
    rw [hfst] at hge
    have := patterns_priority_ge e hmatch.1
    omega
  · by_cases hrb : r = bass
    · left
      rw [h2, mkGroundedResult_root, hrb]
    · right
      rw [h2, mkGroundedResult_root]
      refine ⟨p, hm, ?_⟩
      rw [h1, gScore_of_ne bass r p hrb] at hge
      exact hge

/-- C6 witness: on {60,64,67} with bass 0 the major-triad entry is a
grounded match at the bass; its bonused score bounds the final best. -/
theorem c6_witness :
    (⟨(1 <<< 0) ||| (1 <<< 4) ||| (1 <<< 7), "", 60⟩ : ChordPattern).priority + 30 ≤
      (analyzeGrounded [60, 64, 67] NOTE_NAMES_SHARP false 0).1 :=
  (c6_theorem [60, 64, 67] NOTE_NAMES_SHARP false 0
    ⟨(1 <<< 0) ||| (1 <<< 4) ||| (1 <<< 7), "", 60⟩ (by decide)
    ⟨by decide, ⟨by decide, by decide⟩, by decide⟩).2.1

/-- C7: the slash resolver is engaged iff slash is requested and the
grounded best score is below 50; an unresolved grounded result always
engages it (its score is -1); when engaged, a non-empty resolver result
replaces the grounded one, otherwise the grounded result stands; and a
grounded result rooted at the bass is never below the threshold. -/
theorem c7_theorem (notes : List Int) (uf us : Bool) (names : List String) (bass : Int)
    (hne : notes ≠ [])
    (hnames : names = (if uf then NOTE_NAMES_FLAT else NOTE_NAMES_SHARP))
    (hbass : bass = (minNote notes).tmod 12) :
    (¬ (us = true ∧ (analyzeGrounded notes names us bass).1 < 50) →
        analyze_chord notes uf us = (analyzeGrounded notes names us bass).2) ∧
    ((us = true ∧ (analyzeGrounded notes names us bass).1 < 50) →
        analyze_chord notes uf us =
          (if (analyze_for_slash_chord notes bass names).full_name ≠ ""
            then analyze_for_slash_chord notes bass names
            else (analyzeGrounded notes names us bass).2)) ∧
    ((us = true ∧ (analyzeGrounded notes names us bass).1 < 50) ↔
        (us = true ∧ ((analyzeGrounded notes names us bass).2.root_pitch_class = -1 ∨
          (analyzeGrounded notes names us bass).1 < 50))) ∧
    ((analyzeGrounded notes names us bass).2.root_pitch_class = bass →
        (analyzeGrounded notes names us bass).1 = -1 ∨
          50 ≤ (analyzeGrounded notes names us bass).1) := by
  subst hnames
  subst hbass
  obtain ⟨m, rest, rfl⟩ := List.exists_cons_of_ne_nil hne
  refine ⟨?_, ?_, ?_, analyzeGrounded_bass_rooted _ _ _ _⟩
  · intro h
    rw [analyze_chord_cons, if_neg h]
  · intro h
    rw [analyze_chord_cons, if_pos h]
  · constructor
    · rintro ⟨h1, h2⟩
      exact ⟨h1, Or.inr h2⟩
    · rintro ⟨h1, h2 | h2⟩
      · refine ⟨h1, ?_⟩
        rw [(analyzeGrounded_unresolved_iff _ _ _ _).mp h2]
        omega
      · exact ⟨h1, h2⟩

/-- C7 witness: {64,67,72} without slash — the resolver is not engaged and
the grounded result is returned unchanged. -/
theorem c7_witness :
    analyze_chord [64, 67, 72] false false =
      (analyzeGrounded [64, 67, 72] NOTE_NAMES_SHARP false 4).2 :=
  (c7_theorem [64, 67, 72] false false NOTE_NAMES_SHARP 4 (by decide) rfl (by decide)).1
    (by rintro ⟨h, -⟩; cases h)

/-- C8 counterexample: on pitch classes {C,D,F} with bass parameter G, the
ambiguous entry matches candidate C (mask 37) and a note a minor third above
the pitch class a major second above the bass sounds, yet the returned match
is Dm7(omit5)/G rooted at D (priority 72), not the minor-triad
reinterpretation Am(omit5)/G rooted at A — the reinterpretation does not win
whenever its precondition holds. -/
theorem c8_counterexample :
    candMask [60, 62, 65] 0 = 37 ∧
    anyPcB [60, 62, 65] (((7 + 2 : Int).tmod 12 + 3).tmod 12) = true ∧
    analyze_for_slash_chord [60, 62, 65] 7 NOTE_NAMES_SHARP =
      ⟨"Dm7(omit5)/G", "Dm7(omit5)", "G", true, 2, 7⟩ ∧
    (analyze_for_slash_chord [60, 62, 65] 7 NOTE_NAMES_SHARP).root_pitch_class ≠
      ((7 : Int) + 2).tmod 12 := by
  refine ⟨by decide, by decide, by decide, by decide⟩

/-- C8 (amended): the special branch does re-derive a minor triad with
omitted fifth rooted a major second above the bass, at priority 35 + 10 = 45
(a +10 bonus over the generic ambiguous entry), but it yields the returned
match only when the competing m7(omit5) candidate coincides with the bass;
e.g. valid pitch classes {C,D,F} with bass parameter D and an out-of-range
note of pitch class G (187) produce Em(omit5)/D at best priority 45. -/
theorem c8_theorem :
    slashScan [60, 62, 65, 187] 2 NOTE_NAMES_SHARP =
      (35 + 10, ⟨"Em(omit5)/D", "Em(omit5)", "D", true, 4, 2⟩) ∧
    analyze_for_slash_chord [60, 62, 65, 187] 2 NOTE_NAMES_SHARP =
      mkSlashSpecialResult NOTE_NAMES_SHARP 2 := by
  refine ⟨by decide, by decide⟩

/-- C9 counterexample: a resolved result produced without the slash option
({64,67,72}, rootPitchClass 0, bass 4, difference 4) is classified "root"
by get_inversion_type, not the "1st" that the pure difference mapping
dictates — the classifier is not determined solely by (bass - root) mod 12. -/
theorem c9_counterexample :
    0 ≤ (analyze_chord [64, 67, 72] false false).root_pitch_class ∧
    ((analyze_chord [64, 67, 72] false false).bass_pitch_class -
      (analyze_chord [64, 67, 72] false false).root_pitch_class + 12).tmod 12 = 4 ∧
    get_inversion_type (analyze_chord [64, 67, 72] false false) = "root" ∧
    invLabel 4 = "1st" := by
  refine ⟨by decide, by decide, by decide, by decide⟩

/-- C9 (amended): get_inversion_type returns "root" unconditionally whenever
is_slash_chord is false; only for slash results is the label determined by
(bass - root + 12) mod 12 via the spec's mapping. -/
theorem c9_theorem (c : ChordResult) :
    (c.is_slash_chord = false → get_inversion_type c = "root") ∧
    (c.is_slash_chord = true →
      get_inversion_type c =
        invLabel ((c.bass_pitch_class - c.root_pitch_class + 12).tmod 12)) := by
  constructor
  · intro h
    unfold get_inversion_type
    rw [if_pos h]
  · intro h
    have hns : ¬ (c.is_slash_chord = false) := by
      rw [h]
      exact fun hh => absurd hh (by decide)
    unfold get_inversion_type invLabel
    rw [if_neg hns]

/-- C9 witness: the slash-produced C/E result is labeled by the mapping. -/
theorem c9_witness :
    get_inversion_type (analyze_chord [64, 67, 72] false true) =
      invLabel (((analyze_chord [64, 67, 72] false true).bass_pitch_class -
        (analyze_chord [64, 67, 72] false true).root_pitch_class + 12).tmod 12) :=
  (c9_theorem (analyze_chord [64, 67, 72] false true)).2 (by decide)

/-- C10: for every input and option pair, neither chord_name nor full_name
of the returned ChordResult contains the ambiguous placeholder character:
a grounded "?" match is always outscored by the m7(omit5) match rooted a
major second above it, and the slash resolver writes the placeholder label
never, only its named minor-triad reinterpretation. -/
theorem c10_theorem (notes : List Int) (uf us : Bool) :
    noQ (analyze_chord notes uf us).chord_name ∧ noQ (analyze_chord notes uf us).full_name := by
  unfold noQ
  match notes with
  | [] =>
      rw [show analyze_chord [] uf us = emptyResult from rfl]
      constructor <;> simp [emptyResult]
  | m :: rest =>
      have hn := names_noQ uf
      rw [analyze_chord_cons]
      by_cases hcond : us = true ∧
          (analyzeGrounded (m :: rest) (if uf then NOTE_NAMES_FLAT else NOTE_NAMES_SHARP) us
            ((minNote (m :: rest)).tmod 12)).1 < 50
      · rw [if_pos hcond]
        by_cases hne2 : (analyze_for_slash_chord (m :: rest) ((minNote (m :: rest)).tmod 12)
            (if uf then NOTE_NAMES_FLAT else NOTE_NAMES_SHARP)).full_name ≠ ""
        · rw [if_pos hne2]
          unfold analyze_for_slash_chord
          exact slashScan_noQ (m :: rest) _ _ hn
        · rw [if_neg hne2]
          exact analyzeGrounded_noQ (m :: rest) _ us _ hn
      · rw [if_neg hcond]
        exact analyzeGrounded_noQ (m :: rest) _ us _ hn
